import Mathlib

/-!
# Set_TF_Status_from_Status (src/funcapproximator/DlTfStatusHelper.cc)

The status types and the C API calls `TF_SetStatus` and `TF_GetCode` are
declared outside the repository.  A failed `assert` stops the call: the result
is `none`.  The message reaches `TF_SetStatus` as the `const char*` given by
`c_str()`, a NUL-terminated C string.
-/

namespace tensorflow

/-- Modelled from the spec: the generic status codes `tensorflow::error::Code`,
the 17 enumerators the switch names and `other` for a value of the type that is
none of them. -/
inductive Code where
  | OK
  | CANCELLED
  | UNKNOWN
  | INVALID_ARGUMENT
  | DEADLINE_EXCEEDED
  | NOT_FOUND
  | ALREADY_EXISTS
  | PERMISSION_DENIED
  | UNAUTHENTICATED
  | RESOURCE_EXHAUSTED
  | FAILED_PRECONDITION
  | ABORTED
  | OUT_OF_RANGE
  | UNIMPLEMENTED
  | INTERNAL
  | UNAVAILABLE
  | DATA_LOSS
  | other (raw : Nat)
  deriving DecidableEq, Repr

/-- Modelled from the spec: the foreign status codes `TF_Code` the switch
names. -/
inductive TF_Code where
  | TF_OK
  | TF_CANCELLED
  | TF_UNKNOWN
  | TF_INVALID_ARGUMENT
  | TF_DEADLINE_EXCEEDED
  | TF_NOT_FOUND
  | TF_ALREADY_EXISTS
  | TF_PERMISSION_DENIED
  | TF_UNAUTHENTICATED
  | TF_RESOURCE_EXHAUSTED
  | TF_FAILED_PRECONDITION
  | TF_ABORTED
  | TF_OUT_OF_RANGE
  | TF_UNIMPLEMENTED
  | TF_INTERNAL
  | TF_UNAVAILABLE
  | TF_DATA_LOSS
  deriving DecidableEq, Repr

/-- Modelled from the spec: the generic status, read through `code()` and
`error_message()`. -/
structure Status where
  code : Code
  error_message : String
  deriving DecidableEq, Repr

/-- Modelled from the spec: the foreign status object `TF_Status`, holding a
code and a message. -/
structure TF_Status where
  code : TF_Code
  message : String
  deriving DecidableEq, Repr

/-- The C string behind `error_message().c_str()` as its reader sees it: the
characters of the message before its first NUL character (the whole message
when it holds none). -/
def c_str (s : String) : String :=
  String.mk (s.data.takeWhile (fun c => c ≠ Char.ofNat 0))

/-- A message holds no NUL character. -/
def NulFree (s : String) : Prop := Char.ofNat 0 ∉ s.data

instance (s : String) : Decidable (NulFree s) :=
  inferInstanceAs (Decidable (Char.ofNat 0 ∉ s.data))

/-- Modelled from the spec: the C API call `TF_SetStatus(s, code, msg)` stores
the code and the C string `msg` in the foreign status object. -/
def TF_SetStatus (_s : TF_Status) (code : TF_Code) (msg : String) : TF_Status :=
  ⟨code, msg⟩

/-- Modelled from the spec: the C API call `TF_GetCode(s)` reads the code of the
foreign status object. -/
def TF_GetCode (s : TF_Status) : TF_Code := s.code

/-- Function `Set_TF_Status_from_Status`: the switch over `status.code()`. -/
def Set_TF_Status_from_Status (tf_status : TF_Status) (status : Status) :
    Option TF_Status :=
  let code := status.code
  let message := c_str status.error_message
  match code with
  | .OK => if TF_GetCode tf_status = .TF_OK then some tf_status else none
  | .CANCELLED => some (TF_SetStatus tf_status .TF_CANCELLED message)
  | .UNKNOWN => some (TF_SetStatus tf_status .TF_UNKNOWN message)
  | .INVALID_ARGUMENT => some (TF_SetStatus tf_status .TF_INVALID_ARGUMENT message)
  | .DEADLINE_EXCEEDED => some (TF_SetStatus tf_status .TF_DEADLINE_EXCEEDED message)
  | .NOT_FOUND => some (TF_SetStatus tf_status .TF_NOT_FOUND message)
  | .ALREADY_EXISTS => some (TF_SetStatus tf_status .TF_ALREADY_EXISTS message)
  | .PERMISSION_DENIED => some (TF_SetStatus tf_status .TF_PERMISSION_DENIED message)
  | .UNAUTHENTICATED => some (TF_SetStatus tf_status .TF_UNAUTHENTICATED message)
  | .RESOURCE_EXHAUSTED => some (TF_SetStatus tf_status .TF_RESOURCE_EXHAUSTED message)
  | .FAILED_PRECONDITION => some (TF_SetStatus tf_status .TF_FAILED_PRECONDITION message)
  | .ABORTED => some (TF_SetStatus tf_status .TF_ABORTED message)
  | .OUT_OF_RANGE => some (TF_SetStatus tf_status .TF_OUT_OF_RANGE message)
  | .UNIMPLEMENTED => some (TF_SetStatus tf_status .TF_UNIMPLEMENTED message)
  | .INTERNAL => some (TF_SetStatus tf_status .TF_INTERNAL message)
  | .UNAVAILABLE => some (TF_SetStatus tf_status .TF_UNAVAILABLE message)
  | .DATA_LOSS => some (TF_SetStatus tf_status .TF_DATA_LOSS message)
  | .other _ => none

/-- Modelled from the spec: the one-to-one lookup `mapStatus`, sending each of
the 17 generic codes to the foreign code of the same name. -/
def sameNamed : Code → Option TF_Code
  | .OK => some .TF_OK
  | .CANCELLED => some .TF_CANCELLED
  | .UNKNOWN => some .TF_UNKNOWN
  | .INVALID_ARGUMENT => some .TF_INVALID_ARGUMENT
  | .DEADLINE_EXCEEDED => some .TF_DEADLINE_EXCEEDED
  | .NOT_FOUND => some .TF_NOT_FOUND
  | .ALREADY_EXISTS => some .TF_ALREADY_EXISTS
  | .PERMISSION_DENIED => some .TF_PERMISSION_DENIED
  | .UNAUTHENTICATED => some .TF_UNAUTHENTICATED
  | .RESOURCE_EXHAUSTED => some .TF_RESOURCE_EXHAUSTED
  | .FAILED_PRECONDITION => some .TF_FAILED_PRECONDITION
  | .ABORTED => some .TF_ABORTED
  | .OUT_OF_RANGE => some .TF_OUT_OF_RANGE
  | .UNIMPLEMENTED => some .TF_UNIMPLEMENTED
  | .INTERNAL => some .TF_INTERNAL
  | .UNAVAILABLE => some .TF_UNAVAILABLE
  | .DATA_LOSS => some .TF_DATA_LOSS
  | .other _ => none

/-- Modelled from the spec: `mapStatus(genericCode, message) ->
(foreignCode, message)`, defined on the 17 generic codes. -/
def mapStatus (status : Status) : Option TF_Status :=
  match sameNamed status.code with
  | some c => some ⟨c, status.error_message⟩
  | none => none

end tensorflow

/-!
# GoArrayList (src/lib/SgArrayList.h)

A shallow embedding of the static list `GoArrayList<T, SIZE>`.

* `m_len` is an `int` in the source.  Every statement that decrements it runs
  only after a successful match inside a loop bounded by `m_len`, or after the
  assertion `m_len > 0`, so it never becomes negative; it is a `Nat` here.
* `m_array` is `T m_array[SIZE]`: a list of exactly `SIZE` slots.
* A pointer into `m_array` is the index of the slot it points to.
* `DBG_ASSERT(c)` stops the operation with an error when `c` is false; the
  state reported with the error is the state at the assertion.
* The loop `for (int i = n; i--; step)` is a recursion on `i`: at `0` the loop
  is left, at `i + 1` the body runs with `i` and then `step`.
-/

namespace SgArrayList

/-- The failures a `DBG_ASSERT` of the list can signal. -/
inductive Err where
  /-- `DBG_ASSERT(m_len < SIZE)` of `PushBack`. -/
  | CapacityExceeded
  /-- `DBG_ASSERT(m_len > 0)` of `PopBack` and `Last`. -/
  | Underflow
  /-- `DBG_ASSERT(index >= 0)` and `DBG_ASSERT(index < m_len)` of `operator[]`,
  and `DBG_ASSERT(*this)` of the iterators' `operator*`. -/
  | IndexOutOfRange
  /-- `DBG_ASSERT(!result.Contains(*t))` of `Intersect`, and
  `DBG_ASSERT(length >= 0)`, `DBG_ASSERT(length <= SIZE)` of `Resize`. -/
  | PreconditionViolated
  deriving DecidableEq, Repr

/-- The class `GoArrayList<T, SIZE>`: the fields `m_len` and `m_array`. -/
structure GoArrayList (T : Type) (SIZE : Nat) where
  /-- Field `int m_len`. -/
  m_len : Nat
  /-- Field `T m_array[SIZE]`. -/
  m_array : List T
  /-- The array has `SIZE` slots. -/
  size_eq : m_array.length = SIZE

namespace GoArrayList

variable {T : Type} {SIZE : Nat}

instance [DecidableEq T] : DecidableEq (GoArrayList T SIZE) := fun a b =>
  match a, b with
  | ⟨n, xs, _⟩, ⟨m, ys, _⟩ =>
    if h : n = m ∧ xs = ys then
      isTrue (by cases h.1; cases h.2; rfl)
    else
      isFalse (fun e => h (by cases e; exact ⟨rfl, rfl⟩))

/-- Read of the slot `m_array[t]` (`*t` for a pointer `t`). -/
def load [Inhabited T] (l : GoArrayList T SIZE) (t : Nat) : T :=
  l.m_array.getD t default

/-- Write to the slot `m_array[t]` (`*t = x`). -/
def store (l : GoArrayList T SIZE) (t : Nat) (x : T) : GoArrayList T SIZE :=
  ⟨l.m_len, l.m_array.set t x, by rw [List.length_set]; exact l.size_eq⟩

/-- Assignment to the field `m_len`. -/
def setLen (l : GoArrayList T SIZE) (n : Nat) : GoArrayList T SIZE :=
  ⟨n, l.m_array, l.size_eq⟩

/-- Constructor `GoArrayList()`: `m_len(0)`, the slots default-constructed. -/
def empty [Inhabited T] : GoArrayList T SIZE :=
  ⟨0, List.replicate SIZE default, List.length_replicate _ _⟩

/-- Member `SetTo`: `m_len = 1; m_array[0] = value;`. -/
def SetTo (l : GoArrayList T SIZE) (value : T) : GoArrayList T SIZE :=
  (l.setLen 1).store 0 value

/-- Constructor `GoArrayList(const T &value)`. -/
def single [Inhabited T] (value : T) : GoArrayList T SIZE :=
  (((empty : GoArrayList T SIZE).SetTo value).setLen 1).store 0 value

/-- Member `Length`. -/
def Length (l : GoArrayList T SIZE) : Nat := l.m_len

/-- Member `IsEmpty`. -/
def IsEmpty (l : GoArrayList T SIZE) : Bool := l.m_len == 0

/-- Loop of `operator=`: `for (int i = m_len; i--; ++p, ++pp) *p = *pp;`. -/
def assignLoop [Inhabited T] (src : GoArrayList T SIZE) :
    Nat → Nat → GoArrayList T SIZE → GoArrayList T SIZE
  | 0, _, dst => dst
  | i + 1, p, dst => assignLoop src i (p + 1) (dst.store p (src.load p))

/-- Member `operator=`. -/
def assign [Inhabited T] (dst src : GoArrayList T SIZE) : GoArrayList T SIZE :=
  assignLoop src src.m_len 0 (dst.setLen src.m_len)

/-- Copy constructor: `*this = list` on a fresh object. -/
def copy [Inhabited T] (src : GoArrayList T SIZE) : GoArrayList T SIZE :=
  assign empty src

/-- Loop of `operator==`. -/
def eqLoop [Inhabited T] [DecidableEq T] (a b : GoArrayList T SIZE) : Nat → Nat → Bool
  | 0, _ => true
  | i + 1, p => if a.load p ≠ b.load p then false else eqLoop a b i (p + 1)

/-- Member `operator==`. -/
def opEq [Inhabited T] [DecidableEq T] (a b : GoArrayList T SIZE) : Bool :=
  if a.m_len ≠ b.m_len then false else eqLoop a b a.m_len 0

/-- Member `operator!=`. -/
def opNe [Inhabited T] [DecidableEq T] (a b : GoArrayList T SIZE) : Bool :=
  !(opEq a b)

/-- Member `operator[] const`. -/
def get [Inhabited T] (l : GoArrayList T SIZE) (index : Int) : Except Err T :=
  if index < 0 then .error .IndexOutOfRange
  else if ¬ index < (l.m_len : Int) then .error .IndexOutOfRange
  else .ok (l.load index.toNat)

/-- Member `operator[]` used as the target of an assignment,
`list[index] = x`. -/
def setAt (l : GoArrayList T SIZE) (index : Int) (x : T) :
    Except Err Unit × GoArrayList T SIZE :=
  if index < 0 then (.error .IndexOutOfRange, l)
  else if ¬ index < (l.m_len : Int) then (.error .IndexOutOfRange, l)
  else (.ok (), l.store index.toNat x)

/-- Member `Clear`. -/
def Clear (l : GoArrayList T SIZE) : GoArrayList T SIZE := l.setLen 0

/-- Loop of `Contains`: `for (i = m_len; i--; ++t) if (*t == value) return true;`. -/
def containsLoop [Inhabited T] [DecidableEq T] (l : GoArrayList T SIZE) (value : T) :
    Nat → Nat → Bool
  | 0, _ => false
  | i + 1, t => if l.load t = value then true else containsLoop l value i (t + 1)

/-- Member `Contains`. -/
def Contains [Inhabited T] [DecidableEq T] (l : GoArrayList T SIZE) (value : T) : Bool :=
  containsLoop l value l.m_len 0

/-- Loop of `Exclude`.  The pointer starts at `m_array + m_len - 1` and is
decremented after each body; it is dereferenced only inside the body, where it
equals the counter `i`, so the decrement below zero is never observed. -/
def excludeLoop [Inhabited T] [DecidableEq T] (l : GoArrayList T SIZE) (value : T) :
    Nat → Nat → Bool × GoArrayList T SIZE
  | 0, _ => (false, l)
  | i + 1, t =>
    if l.load t = value then
      let l1 := l.setLen (l.m_len - 1)
      if l1.m_len > 0 then (true, l1.store t (l1.load l1.m_len))
      else (true, l1)
    else excludeLoop l value i (t - 1)

/-- Member `Exclude`. -/
def Exclude [Inhabited T] [DecidableEq T] (l : GoArrayList T SIZE) (value : T) :
    Bool × GoArrayList T SIZE :=
  excludeLoop l value l.m_len (l.m_len - 1)

/-- Member `PushBack`. -/
def PushBack (l : GoArrayList T SIZE) (value : T) :
    Except Err Unit × GoArrayList T SIZE :=
  if ¬ l.m_len < SIZE then (.error .CapacityExceeded, l)
  else (.ok (), (l.store l.m_len value).setLen (l.m_len + 1))

/-- Member `Include`. -/
def Include [Inhabited T] [DecidableEq T] (l : GoArrayList T SIZE) (value : T) :
    Except Err Bool × GoArrayList T SIZE :=
  if l.Contains value then (.ok false, l)
  else
    match l.PushBack value with
    | (.error e, l1) => (.error e, l1)
    | (.ok _, l1) => (.ok true, l1)

/-- Loop of `Intersect`. -/
def intersectLoop [Inhabited T] [DecidableEq T] (self list : GoArrayList T SIZE) :
    Nat → Nat → GoArrayList T SIZE → Except Err (GoArrayList T SIZE)
  | 0, _, result => .ok result
  | i + 1, t, result =>
    if list.Contains (self.load t) then
      if ¬ !(result.Contains (self.load t)) then .error .PreconditionViolated
      else
        match result.PushBack (self.load t) with
        | (.error e, _) => .error e
        | (.ok _, result1) => intersectLoop self list i (t + 1) result1
    else intersectLoop self list i (t + 1) result

/-- Member `Intersect`. -/
def Intersect [Inhabited T] [DecidableEq T] (self list : GoArrayList T SIZE) :
    Except Err (GoArrayList T SIZE) :=
  intersectLoop self list self.m_len 0 empty

/-- Member `Last`. -/
def Last [Inhabited T] (l : GoArrayList T SIZE) : Except Err T :=
  if ¬ l.m_len > 0 then .error .Underflow else .ok (l.load (l.m_len - 1))

/-- Member `PopBack`. -/
def PopBack (l : GoArrayList T SIZE) : Except Err Unit × GoArrayList T SIZE :=
  if ¬ l.m_len > 0 then (.error .Underflow, l) else (.ok (), l.setLen (l.m_len - 1))

/-- Inner loop of `RemoveFirst`: `for (; i--; ++t) *t = *(t + 1);`. -/
def removeFirstShift [Inhabited T] : Nat → Nat → GoArrayList T SIZE → GoArrayList T SIZE
  | 0, _, l => l
  | i + 1, t, l => removeFirstShift i (t + 1) (l.store t (l.load (t + 1)))

/-- Outer loop of `RemoveFirst`. -/
def removeFirstLoop [Inhabited T] [DecidableEq T] (l : GoArrayList T SIZE) (value : T) :
    Nat → Nat → GoArrayList T SIZE
  | 0, _ => l
  | i + 1, t =>
    if l.load t = value then
      let l1 := removeFirstShift i t l
      l1.setLen (l1.m_len - 1)
    else removeFirstLoop l value i (t + 1)

/-- Member `RemoveFirst`. -/
def RemoveFirst [Inhabited T] [DecidableEq T] (l : GoArrayList T SIZE) (value : T) :
    GoArrayList T SIZE :=
  removeFirstLoop l value l.m_len 0

/-- Member `Resize`. -/
def Resize (l : GoArrayList T SIZE) (length : Int) :
    Except Err Unit × GoArrayList T SIZE :=
  if ¬ length ≥ 0 then (.error .PreconditionViolated, l)
  else if ¬ length ≤ (SIZE : Int) then (.error .PreconditionViolated, l)
  else (.ok (), l.setLen length.toNat)

/-- Loop of `SameElements`. -/
def sameElementsLoop [Inhabited T] [DecidableEq T] (self list : GoArrayList T SIZE) :
    Nat → Nat → Bool
  | 0, _ => true
  | i + 1, p => if !(list.Contains (self.load p)) then false
                else sameElementsLoop self list i (p + 1)

/-- Member `SameElements`. -/
def SameElements [Inhabited T] [DecidableEq T] (self list : GoArrayList T SIZE) : Bool :=
  if self.m_len ≠ list.m_len then false else sameElementsLoop self list self.m_len 0

/-- The elements of the list: the slots at the indices `[0, m_len)`. -/
def toList (l : GoArrayList T SIZE) : List T := l.m_array.take l.m_len

/-- A list object built from its elements `xs` and the content `rest` of the
free slots. -/
def ofList (xs rest : List T) (h : xs.length + rest.length = SIZE) : GoArrayList T SIZE :=
  ⟨xs.length, xs ++ rest, by simpa using h⟩


/-- Sequencing of two calls on one list object: the second call runs on the
state left by the first, unless the first stopped at a failed assertion. -/
def andThen {α β : Type} (r : Except Err α × GoArrayList T SIZE)
    (f : GoArrayList T SIZE → Except Err β × GoArrayList T SIZE) :
    Except Err β × GoArrayList T SIZE :=
  match r with
  | (.error e, s) => (.error e, s)
  | (.ok _, s) => f s

/-- The call sequence `PushBack(v_0); ...; PushBack(v_{k-1})` on a list object. -/
def pushBackSeq (l : GoArrayList T SIZE) : List T → Except Err Unit × GoArrayList T SIZE
  | [] => (.ok (), l)
  | v :: vs => andThen (l.PushBack v) (fun s => pushBackSeq s vs)

/-- The writes `list[i] = w(i)` through `operator[]` for the `n` indices from
`t` on, in increasing order. -/
def writeRange (w : Nat → T) : Nat → Nat → GoArrayList T SIZE →
    Except Err Unit × GoArrayList T SIZE
  | 0, _, l => (.ok (), l)
  | n + 1, t, l => andThen (l.setAt (t : Int) (w t)) (fun s => writeRange w n (t + 1) s)

/-- The call sequence `Resize(newLen)`; `list[i] = w(i)` for every `i` in
`[oldLen, newLen)`; `Resize(oldLen)`; `Resize(newLen)`, where `oldLen` is the
length at the start. -/
def resizeWriteResize (l : GoArrayList T SIZE) (newLen : Nat) (w : Nat → T) :
    Except Err Unit × GoArrayList T SIZE :=
  andThen (andThen (andThen (l.Resize (newLen : Int))
    (fun s => writeRange w (newLen - l.m_len) l.m_len s))
    (fun s => s.Resize (l.m_len : Int)))
    (fun s => s.Resize (newLen : Int))

/-- The class `GoArrayList::Iterator`: the pointers `m_end` and `m_current`,
as slot indices of the list iterated over. -/
structure Iterator where
  /-- Field `const T *m_end`. -/
  m_end : Nat
  /-- Field `const T *m_current`. -/
  m_current : Nat
  deriving DecidableEq, Repr

/-- Constructor `Iterator(const GoArrayList &list)`:
`m_end(list.m_array + list.Length()), m_current(list.m_array)`. -/
def Iterator.init (list : GoArrayList T SIZE) : Iterator :=
  ⟨0 + list.Length, 0⟩

/-- Member `Iterator::operator bool`. -/
def Iterator.valid (it : Iterator) : Bool := it.m_current < it.m_end

/-- Member `Iterator::operator*`. -/
def Iterator.deref [Inhabited T] (list : GoArrayList T SIZE) (it : Iterator) : Except Err T :=
  if ¬ it.valid then .error .IndexOutOfRange else .ok (list.load it.m_current)

/-- Member `Iterator::operator++`. -/
def Iterator.next (it : Iterator) : Iterator := ⟨it.m_end, it.m_current + 1⟩

/-- Loop of `PushBackList`: `for (Iterator it(list); it; ++it) PushBack(*it);`.
Each turn moves `m_current` one slot closer to `m_end`. -/
def pushBackListLoop [Inhabited T] {SIZE2 : Nat} (list : GoArrayList T SIZE2) (it : Iterator)
    (self : GoArrayList T SIZE) : Except Err Unit × GoArrayList T SIZE :=
  if it.valid then
    match it.deref list with
    | .error e => (.error e, self)
    | .ok x =>
      match self.PushBack x with
      | (.error e, s) => (.error e, s)
      | (.ok _, s) => pushBackListLoop list it.next s
  else (.ok (), self)
termination_by it.m_end - it.m_current
decreasing_by
  rename_i hv
  have hlt : it.m_current < it.m_end := of_decide_eq_true hv
  simp only [Iterator.next]
  omega

/-- Member `PushBackList`. -/
def PushBackList [Inhabited T] {SIZE2 : Nat} (self : GoArrayList T SIZE)
    (list : GoArrayList T SIZE2) : Except Err Unit × GoArrayList T SIZE :=
  pushBackListLoop list (Iterator.init list) self

/-- Member `Sort` (a reserved word, hence the lower case):
`std::sort(m_array, m_array + m_len)`.  Over a total order the non-decreasing
arrangement of a range is unique, so every correct sort leaves the same slots;
it is computed here by insertion sort.  The slots from `m_len` on are outside
the range. -/
def sort [LinearOrder T] (l : GoArrayList T SIZE) : GoArrayList T SIZE :=
  ⟨l.m_len, (l.m_array.take l.m_len).insertionSort (fun x y => x ≤ y) ++ l.m_array.drop l.m_len,
    by rw [List.length_append, List.length_insertionSort, ← List.length_append,
         List.take_append_drop]; exact l.size_eq⟩

/-- A program state: the list objects of one type, by address. -/
abbrev Objects (T : Type) (SIZE : Nat) := Nat → GoArrayList T SIZE

/-- Loop of `operator=` run on the objects at the addresses `dst` (the
receiver) and `src` (the argument), which may be the same object: every read
`*pp` sees the writes made so far. -/
def assignLoopAt [Inhabited T] (dst src : Nat) :
    Nat → Nat → Objects T SIZE → Objects T SIZE
  | 0, _, st => st
  | i + 1, p, st =>
    assignLoopAt dst src i (p + 1) (Function.update st dst ((st dst).store p ((st src).load p)))

/-- Member `operator=` run on the objects at the addresses `dst` and `src`:
`m_len = list.m_len;` and then the copy loop with `i = m_len`. -/
def assignAt [Inhabited T] (st : Objects T SIZE) (dst src : Nat) : Objects T SIZE :=
  let st1 := Function.update st dst ((st dst).setLen (st src).m_len)
  assignLoopAt dst src (st1 dst).m_len 0 st1

/-- A mutating call on a list object: `PushBack`, `Exclude`, `RemoveFirst`,
`Clear`, or a write `list[index] = x` through `operator[]`. -/
inductive Mutation (T : Type) where
  | PushBack (value : T)
  | Exclude (value : T)
  | RemoveFirst (value : T)
  | Clear
  | Write (index : Int) (x : T)

/-- The receiver after a mutating call (after a failed assertion: as the
assertion found it). -/
def Mutation.run [Inhabited T] [DecidableEq T] (m : Mutation T) (b : GoArrayList T SIZE) :
    GoArrayList T SIZE :=
  match m with
  | .PushBack value => (b.PushBack value).2
  | .Exclude value => (b.Exclude value).2
  | .RemoveFirst value => b.RemoveFirst value
  | .Clear => b.Clear
  | .Write index x => (b.setAt index x).2

/-- A sequence of mutating calls, all on the object at the address `b`. -/
def mutateAt [Inhabited T] [DecidableEq T] (st : Objects T SIZE) (b : Nat) :
    List (Mutation T) → Objects T SIZE
  | [] => st
  | m :: ms => mutateAt (Function.update st b (m.run (st b))) b ms

/-- The list `[3, 1, 2, 1]` in an array of six slots. -/
def sample3121 : GoArrayList Nat 6 := ofList [3, 1, 2, 1] [9, 0] rfl

/-- Invariant I1 of the data model: `0 <= length <= N`. -/
def I1 (l : GoArrayList T SIZE) : Prop := 0 ≤ l.m_len ∧ l.m_len ≤ SIZE

/-- The list `[7, 1, 7, 2]` in an array of four slots. -/
def sample7172 : GoArrayList Nat 4 := ofList [7, 1, 7, 2] [] rfl

/-- Two list objects: `[2, 3, 4]` at address `0` and `[1, 2, 3]` elsewhere. -/
def sampleObjects : Objects Nat 4 := fun n => if n = 0 then ofList [2, 3, 4] [0] rfl
  else ofList [1, 2, 3] [0] rfl

/-- The list `[10, 7, 20, 30]` in an array of six slots. -/
def sample4 : GoArrayList Nat 6 := ofList [10, 7, 20, 30] [0, 0] rfl

/-- The list `[1, 1, 2]` in an array of four slots. -/
def sampleDup : GoArrayList Nat 4 := ofList [1, 1, 2] [0] rfl

/-- The list `[1, 2, 3]` in an array of four slots. -/
def sample123 : GoArrayList Nat 4 := ofList [1, 2, 3] [0] rfl

/-- The list `[2, 3, 4]` in an array of four slots. -/
def sample234 : GoArrayList Nat 4 := ofList [2, 3, 4] [0] rfl

/-- The list `[2, 2, 4]` in an array of four slots. -/
def sample224 : GoArrayList Nat 4 := ofList [2, 2, 4] [0] rfl

/-! ## Slots, fields and the element view -/

theorem ext_fields {a b : GoArrayList T SIZE} (h1 : a.m_len = b.m_len)
    (h2 : a.m_array = b.m_array) : a = b := by
  cases a; cases b; simp_all

@[simp] theorem store_m_len (l : GoArrayList T SIZE) (t : Nat) (x : T) :
    (l.store t x).m_len = l.m_len := rfl

@[simp] theorem store_m_array (l : GoArrayList T SIZE) (t : Nat) (x : T) :
    (l.store t x).m_array = l.m_array.set t x := rfl

@[simp] theorem setLen_m_len (l : GoArrayList T SIZE) (n : Nat) :
    (l.setLen n).m_len = n := rfl

@[simp] theorem setLen_m_array (l : GoArrayList T SIZE) (n : Nat) :
    (l.setLen n).m_array = l.m_array := rfl

@[simp] theorem load_setLen [Inhabited T] (l : GoArrayList T SIZE) (n j : Nat) :
    (l.setLen n).load j = l.load j := rfl

theorem setLen_self (l : GoArrayList T SIZE) : l.setLen l.m_len = l := rfl

theorem set_getElem_same (xs : List T) (i : Nat) (h : i < xs.length) :
    xs.set i xs[i] = xs := by
  apply List.ext_getElem
  · simp
  · intro n h1 h2
    rw [List.getElem_set]
    split
    · next e => subst e; rfl
    · rfl

theorem load_eq_getElem [Inhabited T] (l : GoArrayList T SIZE) (j : Nat)
    (h : j < l.m_array.length) : l.load j = l.m_array[j] := by
  unfold load
  exact List.getD_eq_getElem _ _ h

theorem load_store [Inhabited T] (l : GoArrayList T SIZE) (t j : Nat) (x : T)
    (ht : t < SIZE) : (l.store t x).load j = if j = t then x else l.load j := by
  have hlen : t < l.m_array.length := by rw [l.size_eq]; exact ht
  unfold load
  rw [store_m_array, List.getD_eq_getElem?_getD, List.getD_eq_getElem?_getD,
    List.getElem?_set]
  by_cases h : t = j
  · subst h; simp [hlen]
  · have h2 : ¬ j = t := fun e => h e.symm
    simp [h, h2]

theorem load_store_ne [Inhabited T] (l : GoArrayList T SIZE) (t j : Nat) (x : T)
    (h : j ≠ t) : (l.store t x).load j = l.load j := by
  unfold load
  rw [store_m_array, List.getD_eq_getElem?_getD, List.getD_eq_getElem?_getD,
    List.getElem?_set]
  have h2 : ¬ t = j := fun e => h e.symm
  simp [h2]

theorem length_toList (l : GoArrayList T SIZE) (hwf : l.m_len ≤ SIZE) :
    l.toList.length = l.m_len := by
  unfold toList
  rw [List.length_take, l.size_eq]
  exact Nat.min_eq_left hwf

theorem getElem_toList [Inhabited T] (l : GoArrayList T SIZE) (j : Nat)
    (h : j < l.toList.length) : l.toList[j] = l.load j := by
  have h1 : j < l.m_array.length := by
    have := h
    unfold toList at this
    rw [List.length_take] at this
    exact lt_of_lt_of_le this (Nat.min_le_right _ _)
  rw [load_eq_getElem l j h1]
  unfold toList
  exact List.getElem_take _

theorem mem_toList_iff [Inhabited T] (l : GoArrayList T SIZE) (hwf : l.m_len ≤ SIZE)
    (x : T) : x ∈ l.toList ↔ ∃ j, j < l.m_len ∧ l.load j = x := by
  rw [List.mem_iff_getElem]
  constructor
  · rintro ⟨j, hj, e⟩
    refine ⟨j, ?_, ?_⟩
    · rw [← length_toList l hwf]; exact hj
    · rw [← getElem_toList l j hj]; exact e
  · rintro ⟨j, hj, e⟩
    have hj2 : j < l.toList.length := by rw [length_toList l hwf]; exact hj
    exact ⟨j, hj2, by rw [getElem_toList l j hj2]; exact e⟩

/-- Two list objects with the same length field have the same elements as soon
as their slots below the length agree. -/
theorem toList_eq_of_load [Inhabited T] (a b : GoArrayList T SIZE)
    (ha : a.m_len ≤ SIZE) (hlen : a.m_len = b.m_len)
    (h : ∀ j, j < a.m_len → a.load j = b.load j) : a.toList = b.toList := by
  have hb : b.m_len ≤ SIZE := hlen ▸ ha
  apply List.ext_getElem
  · rw [length_toList a ha, length_toList b hb, hlen]
  · intro n h1 h2
    rw [getElem_toList a n h1, getElem_toList b n h2]
    apply h
    rw [← length_toList a ha]; exact h1

theorem toList_ofList (xs rest : List T) (h : xs.length + rest.length = SIZE) :
    (ofList xs rest h : GoArrayList T SIZE).toList = xs := by
  simp [toList, ofList]

/-! ## Contains -/

theorem containsLoop_iff [Inhabited T] [DecidableEq T] (l : GoArrayList T SIZE) (v : T)
    (i t : Nat) :
    containsLoop l v i t = true ↔ ∃ j, t ≤ j ∧ j < t + i ∧ l.load j = v := by
  induction i generalizing t with
  | zero =>
    simp only [containsLoop]
    constructor
    · intro h; exact absurd h (by decide)
    · rintro ⟨j, h1, h2, _⟩; omega
  | succ i ih =>
    simp only [containsLoop]
    by_cases h : l.load t = v
    · simp only [h, if_true, true_iff]
      exact ⟨t, le_refl _, by omega, h⟩
    · simp only [h, if_false]
      rw [ih (t + 1)]
      constructor
      · rintro ⟨j, h1, h2, h3⟩
        exact ⟨j, by omega, by omega, h3⟩
      · rintro ⟨j, h1, h2, h3⟩
        have hne : j ≠ t := fun e => h (e ▸ h3)
        exact ⟨j, by omega, by omega, h3⟩

theorem Contains_iff_exists [Inhabited T] [DecidableEq T] (l : GoArrayList T SIZE) (v : T) :
    l.Contains v = true ↔ ∃ j, j < l.m_len ∧ l.load j = v := by
  unfold Contains
  rw [containsLoop_iff]
  constructor
  · rintro ⟨j, _, h2, h3⟩; exact ⟨j, by omega, h3⟩
  · rintro ⟨j, h2, h3⟩; exact ⟨j, Nat.zero_le _, by omega, h3⟩

theorem Contains_iff_mem [Inhabited T] [DecidableEq T] (l : GoArrayList T SIZE)
    (hwf : l.m_len ≤ SIZE) (v : T) : l.Contains v = true ↔ v ∈ l.toList := by
  rw [Contains_iff_exists, mem_toList_iff l hwf]

theorem Contains_eq_false_iff [Inhabited T] [DecidableEq T] (l : GoArrayList T SIZE) (v : T) :
    l.Contains v = false ↔ ∀ j, j < l.m_len → l.load j ≠ v := by
  rw [← Bool.not_eq_true, Contains_iff_exists]
  constructor
  · intro h j hj e; exact h ⟨j, hj, e⟩
  · rintro h ⟨j, hj, e⟩; exact h j hj e


/-! ## Exclude -/

/-- The backward scan of `Exclude` over the slots `[0, i)`: either no slot
holds `v` and nothing changes, or the scan stops at the greatest index `k`
below `i` holding `v`, decrements the length and, when the new length is
positive, overwrites slot `k` with the slot at the new length. -/
theorem excludeLoop_spec [Inhabited T] [DecidableEq T] (l : GoArrayList T SIZE) (v : T)
    (i : Nat) :
    ((∀ j, j < i → l.load j ≠ v) ∧ excludeLoop l v i (i - 1) = (false, l)) ∨
    (∃ k, k < i ∧ l.load k = v ∧ (∀ j, k < j → j < i → l.load j ≠ v) ∧
      excludeLoop l v i (i - 1) =
        (true, if l.m_len - 1 > 0
          then (l.setLen (l.m_len - 1)).store k (l.load (l.m_len - 1))
          else l.setLen (l.m_len - 1))) := by
  induction i with
  | zero =>
    left
    exact ⟨fun j hj => absurd hj (Nat.not_lt_zero _), rfl⟩
  | succ i ih =>
    by_cases h : l.load i = v
    · right
      refine ⟨i, Nat.lt_succ_self _, h, fun j h1 h2 => by omega, ?_⟩
      simp only [excludeLoop, Nat.add_sub_cancel, h, if_true, setLen_m_len, load_setLen]
      split <;> rfl
    · have hstep : excludeLoop l v (i + 1) (i + 1 - 1) = excludeLoop l v i (i - 1) := by
        simp only [excludeLoop, Nat.add_sub_cancel, h, if_false]
      rw [hstep]
      rcases ih with ⟨h1, h2⟩ | ⟨k, h1, h2, h3, h4⟩
      · left
        refine ⟨fun j hj => ?_, h2⟩
        by_cases e : j = i
        · subst e; exact h
        · exact h1 j (by omega)
      · right
        refine ⟨k, by omega, h2, fun j hj1 hj2 => ?_, h4⟩
        by_cases e : j = i
        · subst e; exact h
        · exact h3 j hj1 (by omega)

theorem Exclude_fst [Inhabited T] [DecidableEq T] (l : GoArrayList T SIZE) (v : T) :
    (l.Exclude v).1 = l.Contains v := by
  unfold Exclude
  rcases excludeLoop_spec l v l.m_len with ⟨h1, h2⟩ | ⟨k, h1, h2, _, h4⟩
  · rw [h2]
    exact ((Contains_eq_false_iff l v).2 h1).symm
  · rw [h4]
    exact ((Contains_iff_exists l v).2 ⟨k, h1, h2⟩).symm

theorem Exclude_of_not_Contains [Inhabited T] [DecidableEq T] (l : GoArrayList T SIZE)
    (v : T) (h : l.Contains v = false) : l.Exclude v = (false, l) := by
  unfold Exclude
  rcases excludeLoop_spec l v l.m_len with ⟨_, h2⟩ | ⟨k, h1, h2, _, _⟩
  · exact h2
  · have := (Contains_iff_exists l v).2 ⟨k, h1, h2⟩
    rw [h] at this
    exact absurd this (by decide)

/-- The state after a successful `Exclude`, in terms of the greatest index
holding the value. -/
theorem Exclude_of_Contains [Inhabited T] [DecidableEq T] (l : GoArrayList T SIZE)
    (hwf : l.m_len ≤ SIZE) (v : T) (h : l.Contains v = true) :
    ∃ k, k < l.m_len ∧ l.load k = v ∧ (∀ j, k < j → j < l.m_len → l.load j ≠ v) ∧
      (l.Exclude v).1 = true ∧
      (l.Exclude v).2.m_len = l.m_len - 1 ∧
      (l.Exclude v).2.m_array = l.m_array.set k (l.load (l.m_len - 1)) ∧
      ∀ i, i < l.m_len - 1 →
        (l.Exclude v).2.load i = if i = k then l.load (l.m_len - 1) else l.load i := by
  unfold Exclude
  rcases excludeLoop_spec l v l.m_len with ⟨h1, _⟩ | ⟨k, h1, h2, h3, h4⟩
  · have := (Contains_eq_false_iff l v).2 h1
    rw [h] at this
    exact absurd this (by decide)
  · refine ⟨k, h1, h2, h3, ?_⟩
    rw [h4]
    have hk : k < SIZE := lt_of_lt_of_le h1 hwf
    by_cases hpos : l.m_len - 1 > 0
    · simp only [hpos, if_true, store_m_len, setLen_m_len, store_m_array, setLen_m_array,
        true_and]
      intro i _
      rw [load_store _ _ _ _ hk]
      rfl
    · simp only [hpos, if_false, setLen_m_len, setLen_m_array, true_and]
      have hk0 : k = 0 := by omega
      have hlen : l.m_len - 1 = 0 := by omega
      refine ⟨?_, fun i hi => by omega⟩
      rw [hlen, hk0]
      have h0 : 0 < l.m_array.length := by rw [l.size_eq]; omega
      rw [load_eq_getElem l 0 h0]
      exact (set_getElem_same l.m_array 0 h0).symm


theorem get_of_lt [Inhabited T] (l : GoArrayList T SIZE) (i : Nat) (h : i < l.m_len) :
    l.get (i : Int) = .ok (l.load i) := by
  unfold get
  have h1 : ¬ ((i : Int) < 0) := by omega
  have h2 : (i : Int) < (l.m_len : Int) := by omega
  simp [h1, h2]

/-- C1: `Exclude(v)` returns true iff `Contains(v)` held; if `v` does not occur
the list object is unchanged; if it occurs, with `k` the greatest index below
the length holding `v`, the length drops by one and every index below the new
length reads the old last element at `k` and the old element elsewhere.  On
`[a, v, b, c]` with `a`, `b`, `c` different from `v` the result is `[a, c, b]`. -/
theorem Exclude_contract [Inhabited T] [DecidableEq T] (l : GoArrayList T SIZE)
    (hwf : l.m_len ≤ SIZE) (v : T) :
    ((l.Exclude v).1 = true ↔ l.Contains v = true) ∧
    (l.Contains v = false → (l.Exclude v).2 = l) ∧
    (l.Contains v = true →
      ∃ k, k < l.m_len ∧ l.get (k : Int) = .ok v ∧
        (∀ j, k < j → j < l.m_len → l.get (j : Int) ≠ .ok v) ∧
        (l.Exclude v).2.Length = l.Length - 1 ∧
        ∀ i, i < l.Length - 1 →
          (l.Exclude v).2.get (i : Int) =
            if i = k then l.get ((l.Length - 1 : Nat) : Int) else l.get (i : Int)) ∧
    (∀ (a b c : T) (rest : List T) (h : [a, v, b, c].length + rest.length = SIZE),
      a ≠ v → b ≠ v → c ≠ v →
        ((ofList [a, v, b, c] rest h : GoArrayList T SIZE).Exclude v).2.toList = [a, c, b]) := by
  refine ⟨by rw [Exclude_fst], fun h => by rw [Exclude_of_not_Contains l v h], ?_, ?_⟩
  · intro h
    obtain ⟨k, h1, h2, h3, _, h5, _, h7⟩ := Exclude_of_Contains l hwf v h
    refine ⟨k, h1, ?_, ?_, h5, ?_⟩
    · rw [get_of_lt l k h1, h2]
    · intro j hj1 hj2
      rw [get_of_lt l j hj2]
      intro e
      exact h3 j hj1 hj2 (Except.ok.inj e)
    · intro i hi
      unfold Length at hi ⊢
      have hi2 : i < (l.Exclude v).2.m_len := by rw [h5]; exact hi
      rw [get_of_lt _ i hi2, h7 i hi, get_of_lt l _ (by omega : l.m_len - 1 < l.m_len),
        get_of_lt l i (by omega)]
      split <;> rfl
  · intro a b c rest h ha hb hc
    simp [Exclude, excludeLoop, ofList, load, store, setLen, toList, hb, hc]

/-- C1, at `[10, 7, 20, 30]` and the value `7`. -/
theorem Exclude_contract_witness :
    sample4.m_len ≤ 6 ∧ ((sample4.Exclude 7).1 = true ↔ sample4.Contains 7 = true) ∧
      (sample4.Exclude 7).2.toList = [10, 30, 20] :=
  ⟨by decide, (Exclude_contract sample4 (by decide) 7).1,
    (Exclude_contract sample4 (by decide) 7).2.2.2 10 20 30 [0, 0] rfl
      (by decide) (by decide) (by decide)⟩


/-! ## RemoveFirst -/

theorem removeFirstShift_m_len [Inhabited T] (i t : Nat) (l : GoArrayList T SIZE) :
    (removeFirstShift i t l).m_len = l.m_len := by
  induction i generalizing t l with
  | zero => rfl
  | succ i ih =>
    simp only [removeFirstShift]
    rw [ih]
    rfl

/-- The inner loop of `RemoveFirst` moves the slots `(t, t + i]` one place down. -/
theorem removeFirstShift_load [Inhabited T] (i t : Nat) (l : GoArrayList T SIZE)
    (h : t + i < SIZE) (j : Nat) :
    (removeFirstShift i t l).load j =
      if t ≤ j ∧ j < t + i then l.load (j + 1) else l.load j := by
  induction i generalizing t l with
  | zero =>
    have : ¬ (t ≤ j ∧ j < t + 0) := by omega
    simp only [removeFirstShift, this, if_false]
  | succ i ih =>
    simp only [removeFirstShift]
    rw [ih (t + 1) _ (by omega)]
    by_cases h1 : t + 1 ≤ j ∧ j < t + 1 + i
    · have h2 : t ≤ j ∧ j < t + (i + 1) := by omega
      rw [if_pos h1, if_pos h2, load_store_ne _ _ _ _ (by omega)]
    · rw [if_neg h1, load_store _ _ _ _ (by omega : t < SIZE)]
      by_cases h3 : j = t
      · have h2 : t ≤ j ∧ j < t + (i + 1) := by omega
        rw [if_pos h3, if_pos h2, h3]
      · have h2 : ¬ (t ≤ j ∧ j < t + (i + 1)) := by omega
        rw [if_neg h3, if_neg h2]

/-- The forward scan of `RemoveFirst` over the slots `[t, t + i)`. -/
theorem removeFirstLoop_spec [Inhabited T] [DecidableEq T] (l : GoArrayList T SIZE) (v : T)
    (i t : Nat) :
    ((∀ j, t ≤ j → j < t + i → l.load j ≠ v) ∧ removeFirstLoop l v i t = l) ∨
    (∃ k, t ≤ k ∧ k < t + i ∧ l.load k = v ∧ (∀ j, t ≤ j → j < k → l.load j ≠ v) ∧
      removeFirstLoop l v i t =
        (removeFirstShift (t + i - 1 - k) k l).setLen (l.m_len - 1)) := by
  induction i generalizing t with
  | zero =>
    left
    exact ⟨fun j h1 h2 => by omega, rfl⟩
  | succ i ih =>
    by_cases h : l.load t = v
    · right
      refine ⟨t, le_refl _, by omega, h, fun j h1 h2 => by omega, ?_⟩
      have e : t + (i + 1) - 1 - t = i := by omega
      simp only [removeFirstLoop, h, if_true, e, removeFirstShift_m_len]
    · have hstep : removeFirstLoop l v (i + 1) t = removeFirstLoop l v i (t + 1) := by
        simp only [removeFirstLoop, h, if_false]
      rw [hstep]
      rcases ih (t + 1) with ⟨h1, h2⟩ | ⟨k, h1, h2, h3, h4, h5⟩
      · left
        refine ⟨fun j hj1 hj2 => ?_, h2⟩
        by_cases e : j = t
        · subst e; exact h
        · exact h1 j (by omega) (by omega)
      · right
        refine ⟨k, by omega, by omega, h3, fun j hj1 hj2 => ?_, ?_⟩
        · by_cases e : j = t
          · subst e; exact h
          · exact h4 j (by omega) hj2
        · rw [h5]
          have e : t + 1 + i - 1 - k = t + (i + 1) - 1 - k := by omega
          rw [e]

theorem RemoveFirst_of_not_Contains [Inhabited T] [DecidableEq T] (l : GoArrayList T SIZE)
    (v : T) (h : l.Contains v = false) : l.RemoveFirst v = l := by
  unfold RemoveFirst
  rcases removeFirstLoop_spec l v l.m_len 0 with ⟨_, h2⟩ | ⟨k, _, h2, h3, _, _⟩
  · exact h2
  · have := (Contains_iff_exists l v).2 ⟨k, by omega, h3⟩
    rw [h] at this
    exact absurd this (by decide)

/-- The state after `RemoveFirst` on a list holding the value, in terms of the
least index holding it. -/
theorem RemoveFirst_of_Contains [Inhabited T] [DecidableEq T] (l : GoArrayList T SIZE)
    (hwf : l.m_len ≤ SIZE) (v : T) (h : l.Contains v = true) :
    ∃ k, k < l.m_len ∧ l.load k = v ∧ (∀ j, j < k → l.load j ≠ v) ∧
      (l.RemoveFirst v).m_len = l.m_len - 1 ∧
      (∀ j, j < l.m_len - 1 →
        (l.RemoveFirst v).load j = if j < k then l.load j else l.load (j + 1)) ∧
      (l.RemoveFirst v).toList = l.toList.eraseIdx k := by
  unfold RemoveFirst
  rcases removeFirstLoop_spec l v l.m_len 0 with ⟨h1, _⟩ | ⟨k, _, h2, h3, h4, h5⟩
  · have := (Contains_eq_false_iff l v).2 (fun j hj => h1 j (Nat.zero_le _) (by omega))
    rw [h] at this
    exact absurd this (by decide)
  · have hk : k < l.m_len := by omega
    have hload : ∀ j, j < l.m_len - 1 →
        (removeFirstLoop l v l.m_len 0).load j =
          if j < k then l.load j else l.load (j + 1) := by
      intro j hj
      rw [h5, load_setLen, removeFirstShift_load _ _ _ (by omega)]
      by_cases hjk : j < k
      · have : ¬ (k ≤ j ∧ j < k + (0 + l.m_len - 1 - k)) := by omega
        rw [if_neg this, if_pos hjk]
      · have : k ≤ j ∧ j < k + (0 + l.m_len - 1 - k) := by omega
        rw [if_pos this, if_neg hjk]
    have hlen : (removeFirstLoop l v l.m_len 0).m_len = l.m_len - 1 := by
      rw [h5]; rfl
    refine ⟨k, hk, h3, fun j hj => h4 j (Nat.zero_le _) hj, hlen, hload, ?_⟩
    have hL := length_toList l hwf
    apply List.ext_getElem
    · rw [length_toList _ (by rw [hlen]; omega), hlen, List.length_eraseIdx, hL, if_pos hk]
    · intro n hn1 hn2
      have hn : n < l.m_len - 1 := by
        rw [length_toList _ (by rw [hlen]; omega), hlen] at hn1
        exact hn1
      rw [getElem_toList _ n hn1, hload n hn, List.getElem_eraseIdx]
      split
      · rw [getElem_toList]
      · rw [getElem_toList]

/-- Erasing the least index that holds `v` is `List.erase v`. -/
theorem erase_eq_eraseIdx_least [DecidableEq T] (xs : List T) (v : T) (k : Nat)
    (hk : k < xs.length) (hv : xs[k] = v)
    (hleast : ∀ j (hj : j < xs.length), j < k → xs[j] ≠ v) :
    xs.erase v = xs.eraseIdx k := by
  induction xs generalizing k with
  | nil => simp at hk
  | cons x xs ih =>
    cases k with
    | zero =>
      simp only [List.getElem_cons_zero] at hv
      subst hv
      simp
    | succ k =>
      have hx : x ≠ v := hleast 0 (by simp) (by omega)
      have hx2 : (x == v) = false := by simpa using hx
      rw [List.erase_cons, hx2]
      simp only [List.eraseIdx_cons_succ, Bool.false_eq_true, if_false]
      congr 1
      apply ih k (by simpa using hk) (by simpa using hv)
      intro j hj hjk
      have := hleast (j + 1) (by simpa using hj) (by omega)
      simpa using this


/-- The elements after `RemoveFirst(v)` are the old elements with the first
`v` erased. -/
theorem toList_RemoveFirst [Inhabited T] [DecidableEq T] (l : GoArrayList T SIZE)
    (hwf : l.m_len ≤ SIZE) (v : T) : (l.RemoveFirst v).toList = l.toList.erase v := by
  cases h : l.Contains v with
  | false =>
    rw [RemoveFirst_of_not_Contains l v h]
    have : v ∉ l.toList := by
      rw [← Contains_iff_mem l hwf, h]; decide
    exact (List.erase_of_not_mem this).symm
  | true =>
    obtain ⟨k, h1, h2, h3, _, _, h6⟩ := RemoveFirst_of_Contains l hwf v h
    have hL := length_toList l hwf
    rw [h6]
    symm
    apply erase_eq_eraseIdx_least _ v k (by omega)
    · rw [getElem_toList]; exact h2
    · intro j hj hjk
      rw [getElem_toList]
      exact h3 j hjk

/-- C2: `RemoveFirst(v)` leaves the list object unchanged when `v` does not
occur; otherwise, with `k` the least index holding `v`, the length drops by one
and the elements are the old elements before `k` followed by the old elements
after `k`, in their order (the old elements with the first `v` erased).  On
`[a, v, b, c]` with `a` different from `v` the result is `[a, b, c]`. -/
theorem RemoveFirst_contract [Inhabited T] [DecidableEq T] (l : GoArrayList T SIZE)
    (hwf : l.m_len ≤ SIZE) (v : T) :
    (l.Contains v = false → l.RemoveFirst v = l) ∧
    (l.Contains v = true →
      ∃ k, k < l.Length ∧ l.get (k : Int) = .ok v ∧
        (∀ j, j < k → l.get (j : Int) ≠ .ok v) ∧
        (l.RemoveFirst v).Length = l.Length - 1 ∧
        (l.RemoveFirst v).toList = l.toList.take k ++ l.toList.drop (k + 1)) ∧
    (l.RemoveFirst v).toList = l.toList.erase v ∧
    (∀ (a b c : T) (rest : List T) (h : [a, v, b, c].length + rest.length = SIZE),
      a ≠ v →
        ((ofList [a, v, b, c] rest h : GoArrayList T SIZE).RemoveFirst v).toList = [a, b, c]) := by
  refine ⟨RemoveFirst_of_not_Contains l v, ?_, toList_RemoveFirst l hwf v, ?_⟩
  · intro h
    obtain ⟨k, h1, h2, h3, h4, _, h6⟩ := RemoveFirst_of_Contains l hwf v h
    refine ⟨k, h1, ?_, ?_, h4, ?_⟩
    · rw [get_of_lt l k h1, h2]
    · intro j hj
      rw [get_of_lt l j (by omega)]
      intro e
      exact h3 j hj (Except.ok.inj e)
    · rw [h6, List.eraseIdx_eq_take_drop_succ]
  · intro a b c rest h ha
    rw [toList_RemoveFirst _ (by simp [ofList] at h ⊢; omega), toList_ofList]
    have ha2 : (a == v) = false := by simpa using ha
    simp [List.erase_cons, ha2]

/-- C2, at `[10, 7, 20, 30]` and the value `7`. -/
theorem RemoveFirst_contract_witness :
    sample4.m_len ≤ 6 ∧ (sample4.RemoveFirst 7).toList = [10, 20, 30] :=
  ⟨by decide, (RemoveFirst_contract sample4 (by decide) 7).2.2.2 10 20 30 [0, 0] rfl
      (by decide)⟩


/-! ## SameElements -/

theorem sameElementsLoop_iff [Inhabited T] [DecidableEq T] (a b : GoArrayList T SIZE)
    (i p : Nat) :
    sameElementsLoop a b i p = true ↔
      ∀ j, p ≤ j → j < p + i → b.Contains (a.load j) = true := by
  induction i generalizing p with
  | zero =>
    simp only [sameElementsLoop, true_iff]
    intro j h1 h2; omega
  | succ i ih =>
    simp only [sameElementsLoop]
    cases h : b.Contains (a.load p) with
    | false =>
      simp only [Bool.not_false, if_true]
      constructor
      · intro e; exact absurd e (by decide)
      · intro e
        have := e p (le_refl _) (by omega)
        rw [h] at this
        exact this
    | true =>
      simp only [Bool.not_true, Bool.false_eq_true, if_false]
      rw [ih (p + 1)]
      constructor
      · intro e j h1 h2
        by_cases hj : j = p
        · subst hj; exact h
        · exact e j (by omega) (by omega)
      · intro e j h1 h2
        exact e j (by omega) (by omega)

theorem SameElements_iff [Inhabited T] [DecidableEq T] (a b : GoArrayList T SIZE)
    (ha : a.m_len ≤ SIZE) (hb : b.m_len ≤ SIZE) :
    a.SameElements b = true ↔ a.m_len = b.m_len ∧ ∀ x, x ∈ a.toList → x ∈ b.toList := by
  unfold SameElements
  by_cases hlen : a.m_len = b.m_len
  · simp only [ne_eq, hlen, not_true_eq_false, if_false, true_and]
    rw [← hlen, sameElementsLoop_iff]
    constructor
    · intro h x hx
      obtain ⟨j, hj, e⟩ := (mem_toList_iff a ha x).1 hx
      rw [← e, ← Contains_iff_mem b hb]
      exact h j (Nat.zero_le _) (by omega)
    · intro h j _ hj
      rw [Contains_iff_mem b hb]
      exact h _ ((mem_toList_iff a ha _).2 ⟨j, by omega, rfl⟩)
  · simp only [ne_eq, hlen, not_false_eq_true, if_true, false_and]
    exact ⟨fun e => absurd e (by decide), fun e => e.elim⟩

/-- With a duplicate-free receiver, `SameElements` holds exactly when the two
element lists are permutations of each other. -/
theorem SameElements_iff_perm_of_nodup [Inhabited T] [DecidableEq T]
    (a b : GoArrayList T SIZE) (ha : a.m_len ≤ SIZE) (hb : b.m_len ≤ SIZE)
    (hnd : a.toList.Nodup) : a.SameElements b = true ↔ a.toList.Perm b.toList := by
  rw [SameElements_iff a b ha hb]
  constructor
  · rintro ⟨hlen, hsub⟩
    apply (hnd.subperm hsub).perm_of_length_le
    rw [length_toList a ha, length_toList b hb, hlen]
  · intro hp
    refine ⟨?_, fun x hx => hp.mem_iff.1 hx⟩
    rw [← length_toList a ha, ← length_toList b hb]
    exact hp.length_eq

/-- Lists whose elements are permutations of each other are `SameElements`. -/
theorem SameElements_of_perm [Inhabited T] [DecidableEq T]
    (a b : GoArrayList T SIZE) (ha : a.m_len ≤ SIZE) (hb : b.m_len ≤ SIZE)
    (hp : a.toList.Perm b.toList) : a.SameElements b = true := by
  rw [SameElements_iff a b ha hb]
  refine ⟨?_, fun x hx => hp.mem_iff.1 hx⟩
  rw [← length_toList a ha, ← length_toList b hb]
  exact hp.length_eq

/-- C3 (refuted as stated): on `[1, 1, 2]` and `[1, 2, 3]` the call
`SameElements` answers true although the sets of element values differ, and the
call with the operands exchanged answers false. -/
theorem SameElements_not_set_equality :
    ¬ (sampleDup.SameElements sample123 = true ↔
        (sampleDup.Length = sample123.Length ∧
          ∀ x, x ∈ sampleDup.toList ↔ x ∈ sample123.toList)) ∧
    sampleDup.SameElements sample123 ≠ sample123.SameElements sampleDup := by
  constructor
  · intro h
    have h1 : sampleDup.SameElements sample123 = true := by decide
    have h2 := (h.1 h1).2 3
    exact absurd (h2.2 (by decide)) (by decide)
  · decide

/-- C3 (amended): `a.SameElements(b)` is true iff the lengths are equal and
every element of `a` occurs in `b`; when `a` has no duplicate values this is
equality of the lengths and of the sets of element values, and then
`b.SameElements(a)` is true as well. -/
theorem SameElements_contract [Inhabited T] [DecidableEq T] (a b : GoArrayList T SIZE)
    (ha : a.m_len ≤ SIZE) (hb : b.m_len ≤ SIZE) :
    (a.SameElements b = true ↔
      a.Length = b.Length ∧ ∀ x, x ∈ a.toList → x ∈ b.toList) ∧
    (a.toList.Nodup →
      (a.SameElements b = true ↔
        a.Length = b.Length ∧ ∀ x, x ∈ a.toList ↔ x ∈ b.toList)) ∧
    (a.toList.Nodup → a.SameElements b = true → b.SameElements a = true) := by
  refine ⟨SameElements_iff a b ha hb, fun hnd => ?_, fun hnd h => ?_⟩
  · constructor
    · intro h
      have hp := (SameElements_iff_perm_of_nodup a b ha hb hnd).1 h
      exact ⟨((SameElements_iff a b ha hb).1 h).1, fun x => hp.mem_iff⟩
    · rintro ⟨h1, h2⟩
      exact (SameElements_iff a b ha hb).2 ⟨h1, fun x hx => (h2 x).1 hx⟩
  · exact SameElements_of_perm b a hb ha
      ((SameElements_iff_perm_of_nodup a b ha hb hnd).1 h).symm

/-- C3 (amended), at the duplicate-free `[1, 2, 3]` against itself and the
receiver `[1, 1, 2]` against `[1, 2, 3]`. -/
theorem SameElements_contract_witness :
    sample123.m_len ≤ 4 ∧ sampleDup.m_len ≤ 4 ∧ sample123.toList.Nodup ∧
      sample123.SameElements sample123 = true ∧
      (sampleDup.SameElements sample123 = true ↔
        sampleDup.Length = sample123.Length ∧
          ∀ x, x ∈ sampleDup.toList → x ∈ sample123.toList) :=
  ⟨by decide, by decide, by decide,
    (SameElements_contract sample123 sample123 (by decide) (by decide)).2.2 (by decide)
      (by decide),
    (SameElements_contract sampleDup sample123 (by decide) (by decide)).1⟩


/-! ## PushBack -/

theorem PushBack_of_lt (l : GoArrayList T SIZE) (x : T) (h : l.m_len < SIZE) :
    l.PushBack x = (.ok (), (l.store l.m_len x).setLen (l.m_len + 1)) := by
  unfold PushBack
  rw [if_neg (not_not.2 h)]

theorem PushBack_of_not_lt (l : GoArrayList T SIZE) (x : T) (h : ¬ l.m_len < SIZE) :
    l.PushBack x = (.error .CapacityExceeded, l) := by
  unfold PushBack
  rw [if_pos h]

theorem toList_PushBack [Inhabited T] (l : GoArrayList T SIZE) (x : T) (h : l.m_len < SIZE) :
    (l.PushBack x).2.toList = l.toList ++ [x] := by
  rw [PushBack_of_lt l x h]
  have hwf : l.m_len ≤ SIZE := le_of_lt h
  have hwf2 : ((l.store l.m_len x).setLen (l.m_len + 1)).m_len ≤ SIZE := h
  apply List.ext_getElem
  · rw [length_toList _ hwf2, List.length_append, length_toList l hwf]
    rfl
  · intro n h1 h2
    rw [getElem_toList _ n h1, load_setLen, load_store _ _ _ _ h]
    have hn : n < l.m_len + 1 := by
      rw [length_toList _ hwf2] at h1; exact h1
    by_cases e : n = l.m_len
    · rw [if_pos e, List.getElem_append_right (by rw [length_toList l hwf, e])]
      simp
    · have hn2 : n < l.toList.length := by rw [length_toList l hwf]; omega
      rw [if_neg e, List.getElem_append_left hn2, getElem_toList l n hn2]

/-! ## Intersect -/

theorem toList_empty [Inhabited T] : (empty : GoArrayList T SIZE).toList = [] := by
  simp [toList, empty]

theorem drop_toList_eq_cons [Inhabited T] (l : GoArrayList T SIZE) (hwf : l.m_len ≤ SIZE)
    (t : Nat) (h : t < l.m_len) : l.toList.drop t = l.load t :: l.toList.drop (t + 1) := by
  have ht : t < l.toList.length := by rw [length_toList l hwf]; exact h
  rw [List.drop_eq_getElem_cons ht, getElem_toList l t ht]

/-- The loop of `Intersect` over the slots `[t, m_len)` of the receiver, started
with a partial result that has room for them: either it completes, appending the
slots that occur in `list`, and every such slot differs from the partial result
and from the earlier slots of the range; or it stops at the assertion, and some
slot of the range occurring in `list` repeats the partial result or an earlier
slot of the range. -/
theorem intersectLoop_spec [Inhabited T] [DecidableEq T] (self list : GoArrayList T SIZE)
    (hwf : self.m_len ≤ SIZE) (i t : Nat) (result : GoArrayList T SIZE)
    (hti : t + i = self.m_len) (hroom : result.m_len + i ≤ SIZE) :
    (∃ r, intersectLoop self list i t result = .ok r ∧
      r.m_len ≤ SIZE ∧
      r.toList = result.toList ++ (self.toList.drop t).filter (fun x => list.Contains x) ∧
      ∀ j, t ≤ j → j < self.m_len → list.Contains (self.load j) = true →
        self.load j ∉ result.toList ∧ ∀ j', t ≤ j' → j' < j → self.load j' ≠ self.load j) ∨
    (intersectLoop self list i t result = .error .PreconditionViolated ∧
      ∃ j, t ≤ j ∧ j < self.m_len ∧ list.Contains (self.load j) = true ∧
        (self.load j ∈ result.toList ∨ ∃ j', t ≤ j' ∧ j' < j ∧ self.load j' = self.load j)) := by
  induction i generalizing t result with
  | zero =>
    left
    refine ⟨result, rfl, by omega, ?_, fun j h1 h2 => by omega⟩
    have : self.toList.length ≤ t := by rw [length_toList self hwf]; omega
    rw [List.drop_eq_nil_of_le this]
    simp
  | succ i ih =>
    have htl : t < self.m_len := by omega
    have hdrop := drop_toList_eq_cons self hwf t htl
    have hres : result.m_len ≤ SIZE := by omega
    cases hc : list.Contains (self.load t) with
    | false =>
      have hstep : intersectLoop self list (i + 1) t result =
          intersectLoop self list i (t + 1) result := by
        simp only [intersectLoop, hc, Bool.false_eq_true, if_false]
      rw [hstep]
      rcases ih (t + 1) result (by omega) (by omega) with
        ⟨r, h1, h2, h3, h4⟩ | ⟨h1, j, h2, h3, h4, h5⟩
      · left
        refine ⟨r, h1, h2, ?_, ?_⟩
        · rw [h3, hdrop, List.filter_cons_of_neg (by simp [hc])]
        · intro j hj1 hj2 hj3
          have hne : j ≠ t := fun e => by
            rw [e, hc] at hj3; exact absurd hj3 (by decide)
          obtain ⟨h5, h6⟩ := h4 j (by omega) hj2 hj3
          refine ⟨h5, fun j' hj'1 hj'2 => ?_⟩
          by_cases e : j' = t
          · intro e2
            rw [e] at e2
            rw [← e2, hc] at hj3
            exact absurd hj3 (by decide)
          · exact h6 j' (by omega) hj'2
      · right
        refine ⟨h1, j, by omega, h3, h4, ?_⟩
        rcases h5 with h5 | ⟨j', h6, h7, h8⟩
        · exact Or.inl h5
        · exact Or.inr ⟨j', by omega, h7, h8⟩
    | true =>
      cases hr : result.Contains (self.load t) with
      | true =>
        right
        refine ⟨?_, t, le_refl _, htl, hc, Or.inl ((Contains_iff_mem result hres _).1 hr)⟩
        simp [intersectLoop, hc, hr]
      | false =>
        have hlt : result.m_len < SIZE := by omega
        have hstep : intersectLoop self list (i + 1) t result =
            intersectLoop self list i (t + 1) (result.PushBack (self.load t)).2 := by
          simp [intersectLoop, hc, hr, PushBack_of_lt result _ hlt]
        have hnot : self.load t ∉ result.toList := by
          rw [← Contains_iff_mem result hres, hr]; decide
        have hpl := toList_PushBack result (self.load t) hlt
        have hplen : (result.PushBack (self.load t)).2.m_len = result.m_len + 1 := by
          rw [PushBack_of_lt result _ hlt]; rfl
        rw [hstep]
        rcases ih (t + 1) (result.PushBack (self.load t)).2 (by omega) (by omega) with
          ⟨r, h1, h2, h3, h4⟩ | ⟨h1, j, h2, h3, h4, h5⟩
        · left
          refine ⟨r, h1, h2, ?_, ?_⟩
          · rw [h3, hpl, hdrop, List.filter_cons_of_pos (by simp [hc])]
            simp
          · intro j hj1 hj2 hj3
            by_cases e : j = t
            · subst e
              exact ⟨hnot, fun j' hj'1 hj'2 => by omega⟩
            · obtain ⟨h5, h6⟩ := h4 j (by omega) hj2 hj3
              rw [hpl, List.mem_append, not_or] at h5
              refine ⟨h5.1, fun j' hj'1 hj'2 => ?_⟩
              by_cases e2 : j' = t
              · rw [e2]
                intro e3
                exact h5.2 (by simp [e3])
              · exact h6 j' (by omega) hj'2
        · right
          refine ⟨h1, j, by omega, h3, h4, ?_⟩
          rcases h5 with h5 | ⟨j', h6, h7, h8⟩
          · rw [hpl, List.mem_append] at h5
            rcases h5 with h5 | h5
            · exact Or.inl h5
            · right
              refine ⟨t, le_refl _, by omega, ?_⟩
              simp only [List.mem_singleton] at h5
              exact h5.symm
          · exact Or.inr ⟨j', by omega, h7, h8⟩

/-- The two outcomes of `Intersect`. -/
theorem Intersect_spec [Inhabited T] [DecidableEq T] (self list : GoArrayList T SIZE)
    (hwf : self.m_len ≤ SIZE) :
    (∃ r, self.Intersect list = .ok r ∧ r.m_len ≤ SIZE ∧
      r.toList = self.toList.filter (fun x => list.Contains x) ∧
      ∀ j, j < self.m_len → list.Contains (self.load j) = true →
        ∀ j', j' < j → self.load j' ≠ self.load j) ∨
    (self.Intersect list = .error .PreconditionViolated ∧
      ∃ j j', j' < j ∧ j < self.m_len ∧ self.load j' = self.load j ∧
        list.Contains (self.load j) = true) := by
  unfold Intersect
  rcases intersectLoop_spec self list hwf self.m_len 0 empty (by omega)
      (by show 0 + self.m_len ≤ SIZE; omega) with
    ⟨r, h1, h2, h3, h4⟩ | ⟨h1, j, _, h3, h4, h5⟩
  · left
    refine ⟨r, h1, h2, ?_, fun j hj hc j' hj' => (h4 j (Nat.zero_le _) hj hc).2 j' (Nat.zero_le _) hj'⟩
    rw [h3, toList_empty]
    simp
  · right
    refine ⟨h1, ?_⟩
    rcases h5 with h5 | ⟨j', _, h7, h8⟩
    · rw [toList_empty] at h5
      exact absurd h5 (List.not_mem_nil _)
    · exact ⟨j, j', h7, h3, h8, h4⟩


theorem get_eq_ok_iff [Inhabited T] (l : GoArrayList T SIZE) (i : Nat) (x : T) :
    l.get (i : Int) = .ok x ↔ i < l.m_len ∧ l.load i = x := by
  by_cases h : i < l.m_len
  · rw [get_of_lt l i h]
    constructor
    · intro e; exact ⟨h, Except.ok.inj e⟩
    · rintro ⟨_, e⟩; rw [e]
  · unfold get
    have h1 : ¬ ((i : Int) < 0) := by omega
    have h2 : ¬ ((i : Int) < (l.m_len : Int)) := by omega
    simp [h1, h2, h]

/-- In a duplicate-free list two slots below the length with equal content are
the same slot. -/
theorem load_inj_of_nodup [Inhabited T] (l : GoArrayList T SIZE) (hwf : l.m_len ≤ SIZE)
    (hnd : l.toList.Nodup) (i j : Nat) (hi : i < l.m_len) (hj : j < l.m_len)
    (e : l.load i = l.load j) : i = j := by
  have hi2 : i < l.toList.length := by rw [length_toList l hwf]; exact hi
  have hj2 : j < l.toList.length := by rw [length_toList l hwf]; exact hj
  rw [← getElem_toList l i hi2, ← getElem_toList l j hj2] at e
  exact (hnd.getElem_inj_iff).1 e

/-- C4: for a duplicate-free receiver `a` (and any argument `b`, duplicate-free
or not) `a.Intersect(b)` completes without a failed assertion and returns a list
within capacity whose elements are exactly the elements `x` of `a` with
`b.Contains(x)`, in the order of `a`.  The operands are passed by const
reference: the call is a function of them and returns a fresh object. -/
theorem Intersect_contract [Inhabited T] [DecidableEq T] (a b : GoArrayList T SIZE)
    (ha : a.m_len ≤ SIZE) (hnda : a.toList.Nodup) :
    ∃ r, a.Intersect b = .ok r ∧ r.Length ≤ SIZE ∧
      r.toList = a.toList.filter (fun x => b.Contains x) := by
  rcases Intersect_spec a b ha with ⟨r, h1, h2, h3, _⟩ | ⟨_, j, j', h1, h2, h3, _⟩
  · exact ⟨r, h1, h2, h3⟩
  · have := load_inj_of_nodup a ha hnda j' j (by omega) h2 h3
    omega

/-- C4, at `[1, 2, 3].Intersect([2, 3, 4])`, which is `[2, 3]`. -/
theorem Intersect_contract_witness :
    sample123.m_len ≤ 4 ∧ sample123.toList.Nodup ∧ sample234.toList.Nodup ∧
      ∃ r, sample123.Intersect sample234 = .ok r ∧ r.Length ≤ 4 ∧ r.toList = [2, 3] :=
  ⟨by decide, by decide, by decide,
    Intersect_contract sample123 sample234 (by decide) (by decide)⟩

/-- C5: `a.Intersect(b)` stops at the assertion `!result.Contains(*t)` iff some
value stands at two different indices of `a` and occurs in `b`; it signals no
other failure; and it never stops when `a` is duplicate-free, whatever `b`
holds. -/
theorem Intersect_raises_iff [Inhabited T] [DecidableEq T] (a b : GoArrayList T SIZE)
    (ha : a.m_len ≤ SIZE) :
    (a.Intersect b = .error .PreconditionViolated ↔
      ∃ (x : T) (i j : Nat), i ≠ j ∧ a.get (i : Int) = .ok x ∧ a.get (j : Int) = .ok x ∧
        b.Contains x = true) ∧
    (∀ e, a.Intersect b = .error e → e = .PreconditionViolated) ∧
    (a.toList.Nodup → ∃ r, a.Intersect b = .ok r) := by
  refine ⟨⟨fun h => ?_, ?_⟩, fun e h => ?_, fun hnd => ?_⟩
  · rcases Intersect_spec a b ha with ⟨r, h1, _⟩ | ⟨_, j, j', h1, h2, h3, h4⟩
    · rw [h1] at h
      exact absurd h (by simp)
    · refine ⟨a.load j, j', j, by omega, ?_, ?_, h4⟩
      · exact (get_eq_ok_iff a j' _).2 ⟨by omega, h3⟩
      · exact (get_eq_ok_iff a j _).2 ⟨h2, rfl⟩
  · rintro ⟨x, i, j, hne, hi, hj, hc⟩
    obtain ⟨hi1, hi2⟩ := (get_eq_ok_iff a i x).1 hi
    obtain ⟨hj1, hj2⟩ := (get_eq_ok_iff a j x).1 hj
    rcases Intersect_spec a b ha with ⟨r, _, _, _, h4⟩ | ⟨h1, _⟩
    · exfalso
      rcases Nat.lt_or_gt_of_ne hne with hlt | hlt
      · exact h4 j hj1 (by rw [hj2]; exact hc) i hlt (by rw [hi2, hj2])
      · exact h4 i hi1 (by rw [hi2]; exact hc) j hlt (by rw [hi2, hj2])
    · exact h1
  · rcases Intersect_spec a b ha with ⟨r, h1, _⟩ | ⟨h1, _⟩
    · rw [h1] at h
      exact absurd h (by simp)
    · rw [h1] at h
      exact (Except.error.inj h).symm
  · rcases Intersect_spec a b ha with ⟨r, h1, _⟩ | ⟨_, j, j', h1, h2, h3, _⟩
    · exact ⟨r, h1⟩
    · have := load_inj_of_nodup a ha hnd j' j (by omega) h2 h3
      omega

/-- C5, at the receiver `[1, 1, 2]` with `[1, 2, 3]` (the assertion fails) and
at the duplicate-free receiver `[1, 2, 3]` with `[2, 2, 4]` (it does not). -/
theorem Intersect_raises_iff_witness :
    sampleDup.m_len ≤ 4 ∧ sample123.m_len ≤ 4 ∧
      sampleDup.Intersect sample123 = .error .PreconditionViolated ∧
      ∃ r, sample123.Intersect sample224 = .ok r :=
  ⟨by decide, by decide,
    (Intersect_raises_iff sampleDup sample123 (by decide)).1.2
      ⟨1, 0, 1, by decide, rfl, rfl, by decide⟩,
    (Intersect_raises_iff sample123 sample224 (by decide)).2.2 (by decide)⟩


/-- C6: `PushBack(v)` signals `CapacityExceeded` iff the length equals the
capacity, and then returns the list object as it was; below the capacity it
succeeds, the length grows by exactly one, index `old length` reads `v` and the
indices below it read what they read before. -/
theorem PushBack_contract [Inhabited T] (l : GoArrayList T SIZE) (hwf : l.m_len ≤ SIZE)
    (v : T) :
    ((l.PushBack v).1 = .error .CapacityExceeded ↔ l.Length = SIZE) ∧
    (l.Length = SIZE → (l.PushBack v).2 = l) ∧
    (l.Length < SIZE →
      (l.PushBack v).1 = .ok () ∧
      (l.PushBack v).2.Length = l.Length + 1 ∧
      (l.PushBack v).2.get (l.Length : Int) = .ok v ∧
      ∀ i, i < l.Length → (l.PushBack v).2.get (i : Int) = l.get (i : Int)) := by
  unfold Length
  refine ⟨?_, fun h => ?_, fun h => ?_⟩
  · by_cases h : l.m_len < SIZE
    · rw [PushBack_of_lt l v h]
      constructor
      · intro e; exact absurd e (by simp)
      · intro e; omega
    · rw [PushBack_of_not_lt l v h]
      exact ⟨fun _ => by omega, fun _ => rfl⟩
  · rw [PushBack_of_not_lt l v (by omega)]
  · rw [PushBack_of_lt l v h]
    refine ⟨rfl, rfl, ?_, fun i hi => ?_⟩
    · rw [get_of_lt _ l.m_len (by show l.m_len < l.m_len + 1; omega), load_setLen,
        load_store _ _ _ _ h, if_pos rfl]
    · rw [get_of_lt _ i (by show i < l.m_len + 1; omega), get_of_lt l i hi, load_setLen,
        load_store_ne _ _ _ _ (by omega)]

/-- C6, at the full list `[1, 2, 3]` of capacity three. -/
theorem PushBack_contract_witness :
    (ofList [1, 2, 3] [] rfl : GoArrayList Nat 3).m_len ≤ 3 ∧
      ((ofList [1, 2, 3] [] rfl : GoArrayList Nat 3).PushBack 9).2 =
        (ofList [1, 2, 3] [] rfl : GoArrayList Nat 3) :=
  ⟨by decide, (PushBack_contract (ofList [1, 2, 3] [] rfl : GoArrayList Nat 3)
    (by decide) 9).2.1 rfl⟩

theorem pushBackSeq_spec [Inhabited T] (vs : List T) (l : GoArrayList T SIZE)
    (h : l.m_len + vs.length ≤ SIZE) :
    (pushBackSeq l vs).1 = .ok () ∧
    (pushBackSeq l vs).2.m_len = l.m_len + vs.length ∧
    (pushBackSeq l vs).2.toList = l.toList ++ vs := by
  induction vs generalizing l with
  | nil => simp [pushBackSeq]
  | cons v vs ih =>
    have hlt : l.m_len < SIZE := by simp at h; omega
    have hstep : pushBackSeq l (v :: vs) = pushBackSeq (l.PushBack v).2 vs := by
      simp only [pushBackSeq, PushBack_of_lt l v hlt, andThen]
    have hlen : (l.PushBack v).2.m_len = l.m_len + 1 := by
      rw [PushBack_of_lt l v hlt]; rfl
    have := ih (l.PushBack v).2 (by rw [hlen]; simp at h; omega)
    rw [hstep, this.2.2, toList_PushBack l v hlt, this.1, this.2.1, hlen]
    refine ⟨rfl, ?_, by simp⟩
    simp only [List.length_cons]
    omega

/-- C7: from the default-constructed list, `k <= SIZE` calls of `PushBack` with
the values `v_0 .. v_{k-1}` all succeed, the length is `k` afterwards and
`operator[](i)` returns `v_i` for every `i < k`. -/
theorem pushBackSeq_contract [Inhabited T] (vs : List T) (hk : vs.length ≤ SIZE) :
    (pushBackSeq (empty : GoArrayList T SIZE) vs).1 = .ok () ∧
    (pushBackSeq (empty : GoArrayList T SIZE) vs).2.Length = vs.length ∧
    ∀ i (hi : i < vs.length),
      (pushBackSeq (empty : GoArrayList T SIZE) vs).2.get (i : Int) = .ok vs[i] := by
  have hsp := pushBackSeq_spec vs (empty : GoArrayList T SIZE)
    (by show 0 + vs.length ≤ SIZE; omega)
  have hlen : (pushBackSeq (empty : GoArrayList T SIZE) vs).2.m_len = vs.length := by
    rw [hsp.2.1]; show 0 + vs.length = vs.length; omega
  refine ⟨hsp.1, hlen, fun i hi => ?_⟩
  have hl := hsp.2.2
  rw [toList_empty, List.nil_append] at hl
  have hi2 : i < (pushBackSeq (empty : GoArrayList T SIZE) vs).2.toList.length := by
    rw [hl]; exact hi
  rw [get_of_lt _ i (by rw [hlen]; exact hi), ← getElem_toList _ i hi2]
  congr 1
  simp only [hl]

/-- C7, at three pushes into a list of capacity four. -/
theorem pushBackSeq_contract_witness :
    [5, 6, 7].length ≤ 4 ∧
      (pushBackSeq (empty : GoArrayList Nat 4) [5, 6, 7]).1 = .ok () ∧
      (pushBackSeq (empty : GoArrayList Nat 4) [5, 6, 7]).2.Length = 3 :=
  ⟨by decide, (pushBackSeq_contract [5, 6, 7] (by decide)).1,
    (pushBackSeq_contract [5, 6, 7] (by decide)).2.1⟩

/-- C8: when there is room or the value is already contained, `Include(v)`
returns true and appends `v` (length plus one) if `v` was not contained, and
returns false leaving the list object unchanged if it was; `Contains(v)` holds
afterwards; and a second `Include(v)` returns false and changes nothing. -/
theorem Include_contract [Inhabited T] [DecidableEq T] (l : GoArrayList T SIZE)
    (v : T) (h : l.Length < SIZE ∨ l.Contains v = true) :
    (l.Contains v = false →
      (l.Include v).1 = .ok true ∧ (l.Include v).2.Length = l.Length + 1 ∧
      (l.Include v).2.toList = l.toList ++ [v]) ∧
    (l.Contains v = true → l.Include v = (.ok false, l)) ∧
    (l.Include v).2.Contains v = true ∧
    (l.Include v).2.Include v = (.ok false, (l.Include v).2) := by
  have hyes : ∀ s : GoArrayList T SIZE, s.Contains v = true → s.Include v = (.ok false, s) := by
    intro s hs
    unfold Include
    rw [if_pos hs]
  cases hc : l.Contains v with
  | true =>
    have e := hyes l hc
    refine ⟨fun h0 => absurd h0 (by decide), fun _ => e, ?_, ?_⟩
    · rw [e]; exact hc
    · rw [e]; exact e
  | false =>
    have hlt : l.m_len < SIZE := by
      rcases h with h | h
      · exact h
      · rw [hc] at h; exact absurd h (by decide)
    have e : l.Include v = (.ok true, (l.PushBack v).2) := by
      unfold Include
      rw [hc, PushBack_of_lt l v hlt]
      rfl
    have hlist := toList_PushBack l v hlt
    have hlen : (l.PushBack v).2.m_len = l.m_len + 1 := by
      rw [PushBack_of_lt l v hlt]; rfl
    have hcont : (l.PushBack v).2.Contains v = true := by
      rw [Contains_iff_mem _ (by rw [hlen]; omega), hlist]
      simp
    refine ⟨fun _ => ?_, fun h0 => absurd h0 (by decide), ?_, ?_⟩
    · rw [e]; exact ⟨rfl, hlen, hlist⟩
    · rw [e]; exact hcont
    · rw [e]; exact hyes _ hcont

/-- C8, at `[1, 2, 3]` in four slots and the new value `9`. -/
theorem Include_contract_witness :
    (sample123.Length < 4 ∨ sample123.Contains 9 = true) ∧
      (sample123.Include 9).2.Contains 9 = true ∧
      (sample123.Include 9).2.Include 9 = (.ok false, (sample123.Include 9).2) :=
  ⟨Or.inl (by decide),
    (Include_contract sample123 9 (Or.inl (by decide))).2.2.1,
    (Include_contract sample123 9 (Or.inl (by decide))).2.2.2⟩


/-! ## Resize -/

theorem Resize_of_le (l : GoArrayList T SIZE) (n : Nat) (h : n ≤ SIZE) :
    l.Resize (n : Int) = (.ok (), l.setLen n) := by
  unfold Resize
  have h1 : (n : Int) ≥ 0 := by omega
  have h2 : (n : Int) ≤ (SIZE : Int) := by omega
  simp [h1, h2]

theorem Resize_m_array (l : GoArrayList T SIZE) (n : Int) :
    (l.Resize n).2.m_array = l.m_array := by
  unfold Resize
  split
  · rfl
  · split <;> rfl

theorem setAt_of_lt (l : GoArrayList T SIZE) (i : Nat) (x : T) (h : i < l.m_len) :
    l.setAt (i : Int) x = (.ok (), l.store i x) := by
  unfold setAt
  have h1 : ¬ ((i : Int) < 0) := by omega
  have h2 : (i : Int) < (l.m_len : Int) := by omega
  simp [h1, h2]

theorem writeRange_spec [Inhabited T] (w : Nat → T) (n t : Nat) (l : GoArrayList T SIZE)
    (hwf : l.m_len ≤ SIZE) (h : t + n ≤ l.m_len) :
    (writeRange w n t l).1 = .ok () ∧
    (writeRange w n t l).2.m_len = l.m_len ∧
    ∀ j, (writeRange w n t l).2.load j =
      if t ≤ j ∧ j < t + n then w j else l.load j := by
  induction n generalizing t l with
  | zero =>
    refine ⟨rfl, rfl, fun j => ?_⟩
    have : ¬ (t ≤ j ∧ j < t + 0) := by omega
    rw [if_neg this]
    rfl
  | succ n ih =>
    have hstep : writeRange w (n + 1) t l = writeRange w n (t + 1) (l.store t (w t)) := by
      simp only [writeRange, setAt_of_lt l t (w t) (by omega), andThen]
    rw [hstep]
    obtain ⟨h1, h2, h3⟩ := ih (t + 1) (l.store t (w t)) hwf (by rw [store_m_len]; omega)
    refine ⟨h1, h2, fun j => ?_⟩
    rw [h3 j, load_store _ _ _ _ (by omega : t < SIZE)]
    by_cases e : j = t
    · have : ¬ (t + 1 ≤ j ∧ j < t + 1 + n) := by omega
      have h5 : t ≤ j ∧ j < t + (n + 1) := by omega
      rw [if_neg this, if_pos e, if_pos h5, e]
    · by_cases h4 : t + 1 ≤ j ∧ j < t + 1 + n
      · have h5 : t ≤ j ∧ j < t + (n + 1) := by omega
        rw [if_pos h4, if_pos h5]
      · have h5 : ¬ (t ≤ j ∧ j < t + (n + 1)) := by omega
        rw [if_neg h4, if_neg e, if_neg h5]

/-- C9: `Resize` never changes a storage slot, whether it succeeds or not.
Hence, for a list of length `oldLen <= newLen <= SIZE`, the sequence
`Resize(newLen)`, writes of `w(i)` to every index of `[oldLen, newLen)`,
`Resize(oldLen)`, `Resize(newLen)` succeeds, ends with length `newLen`, reads
`w(i)` at every index of `[oldLen, newLen)` and reads the original elements
below `oldLen`. -/
theorem Resize_contract [Inhabited T] (l : GoArrayList T SIZE) (newLen : Nat)
    (w : Nat → T) (hold : l.Length ≤ newLen) (hnew : newLen ≤ SIZE) :
    (∀ n : Int, (l.Resize n).2.m_array = l.m_array) ∧
    (resizeWriteResize l newLen w).1 = .ok () ∧
    (resizeWriteResize l newLen w).2.Length = newLen ∧
    (∀ i, l.Length ≤ i → i < newLen →
      (resizeWriteResize l newLen w).2.get (i : Int) = .ok (w i)) ∧
    (∀ i, i < l.Length →
      (resizeWriteResize l newLen w).2.get (i : Int) = l.get (i : Int)) := by
  unfold Length at *
  obtain ⟨h1, h2, h3⟩ := writeRange_spec w (newLen - l.m_len) l.m_len (l.setLen newLen)
    hnew (by show l.m_len + (newLen - l.m_len) ≤ newLen; omega)
  have hrun : resizeWriteResize l newLen w =
      (.ok (), ((writeRange w (newLen - l.m_len) l.m_len (l.setLen newLen)).2.setLen
        l.m_len).setLen newLen) := by
    unfold resizeWriteResize
    rw [Resize_of_le l newLen hnew]
    simp only [andThen]
    generalize writeRange w (newLen - l.m_len) l.m_len (l.setLen newLen) = r at h1 ⊢
    obtain ⟨r1, r2⟩ := r
    simp only at h1
    subst h1
    simp only [andThen]
    rw [Resize_of_le r2 l.m_len (by omega)]
    simp only [andThen]
    rw [Resize_of_le _ newLen hnew]
  refine ⟨Resize_m_array l, by rw [hrun], by rw [hrun]; rfl, fun i hi1 hi2 => ?_,
    fun i hi => ?_⟩
  · rw [hrun, get_of_lt _ i (by show i < newLen; exact hi2), load_setLen, load_setLen, h3 i,
      if_pos (by omega)]
  · rw [hrun, get_of_lt _ i (by show i < newLen; omega), load_setLen, load_setLen, h3 i,
      if_neg (by omega), load_setLen, get_of_lt l i hi]

/-- C9, at `[1, 2, 3]` in four slots grown to length four with the value `8`
written at index three. -/
theorem Resize_contract_witness :
    sample123.Length ≤ 4 ∧ 4 ≤ 4 ∧
      (resizeWriteResize sample123 4 (fun _ => 8)).2.get ((3 : Nat) : Int) = .ok 8 :=
  ⟨by decide, by decide,
    (Resize_contract sample123 4 (fun _ => 8) (by decide) (by decide)).2.2.2.1 3
      (by decide) (by decide)⟩


/-! ## Exclude and RemoveFirst as removals of one occurrence -/

/-- Overwriting position `k` with the last element and dropping the last
position leaves a permutation of the list with position `k` erased. -/
theorem set_last_take_perm [Inhabited T] (xs : List T) (k : Nat) (hk : k < xs.length) :
    ((xs.set k (xs.getD (xs.length - 1) default)).take (xs.length - 1)).Perm
      (xs.eraseIdx k) := by
  induction xs generalizing k with
  | nil => simp at hk
  | cons x xs ih =>
    cases xs with
    | nil =>
      have : k = 0 := by simpa using hk
      subst this
      simp
    | cons y ys =>
      have hz : (x :: y :: ys).getD ((x :: y :: ys).length - 1) default =
          (y :: ys).getD ((y :: ys).length - 1) default := by
        simp
      have hlen : (x :: y :: ys).length - 1 = ((y :: ys).length - 1) + 1 := by simp
      cases k with
      | zero =>
        rw [hz, hlen, List.set_cons_zero, List.take_succ_cons, List.eraseIdx_cons_zero]
        have hne : (y :: ys) ≠ [] := by simp
        have hlast : (y :: ys).getD ((y :: ys).length - 1) default = (y :: ys).getLast hne := by
          rw [List.getLast_eq_getElem, List.getD_eq_getElem]
        have hdl : List.take ((y :: ys).length - 1) (y :: ys) = (y :: ys).dropLast := by
          rw [List.dropLast_eq_take]
        rw [hlast, hdl]
        have := List.dropLast_append_getLast hne
        conv_rhs => rw [← this]
        exact @List.perm_append_comm T [(y :: ys).getLast hne] (y :: ys).dropLast
      | succ k =>
        rw [hz, hlen, List.set_cons_succ, List.take_succ_cons, List.eraseIdx_cons_succ]
        exact (ih k (by simpa using hk)).cons x

/-- Erasing any position that holds `v` gives a permutation of `erase v`. -/
theorem eraseIdx_perm_erase [DecidableEq T] (xs : List T) (v : T) (k : Nat)
    (hk : k < xs.length) (hv : xs[k] = v) : (xs.eraseIdx k).Perm (xs.erase v) := by
  induction xs generalizing k with
  | nil => simp at hk
  | cons x xs ih =>
    cases k with
    | zero =>
      simp only [List.getElem_cons_zero] at hv
      subst hv
      simp
    | succ k =>
      have hk2 : k < xs.length := by simpa using hk
      have hv2 : xs[k] = v := by simpa using hv
      have hih := ih k hk2 hv2
      rw [List.eraseIdx_cons_succ]
      by_cases e : x = v
      · subst e
        rw [List.erase_cons_head]
        have hmem : x ∈ xs := by rw [← hv2]; exact List.getElem_mem _
        exact (hih.cons x).trans (List.perm_cons_erase hmem).symm
      · have e2 : (x == v) = false := by simpa using e
        rw [List.erase_cons, e2]
        simp only [Bool.false_eq_true, if_false]
        exact hih.cons x

/-- The elements after `Exclude(v)` are a permutation of the old elements with
one `v` erased. -/
theorem toList_Exclude_perm [Inhabited T] [DecidableEq T] (l : GoArrayList T SIZE)
    (hwf : l.m_len ≤ SIZE) (v : T) : (l.Exclude v).2.toList.Perm (l.toList.erase v) := by
  cases h : l.Contains v with
  | false =>
    rw [Exclude_of_not_Contains l v h]
    have : v ∉ l.toList := by
      rw [← Contains_iff_mem l hwf, h]; decide
    rw [List.erase_of_not_mem this]
  | true =>
    obtain ⟨k, h1, h2, _, _, h5, h6, _⟩ := Exclude_of_Contains l hwf v h
    have hL := length_toList l hwf
    have hk : k < l.toList.length := by rw [hL]; exact h1
    have hlast : l.load (l.m_len - 1) = l.toList.getD (l.toList.length - 1) default := by
      have hlt : l.toList.length - 1 < l.toList.length := by omega
      rw [List.getD_eq_getElem _ _ hlt, getElem_toList l _ hlt, hL]
    have hshape : (l.Exclude v).2.toList =
        (l.toList.set k (l.toList.getD (l.toList.length - 1) default)).take
          (l.toList.length - 1) := by
      unfold toList at hlast ⊢
      rw [h5, h6, hlast, ← List.set_take, List.take_take]
      congr 1
      rw [← toList, hL]
      omega
    rw [hshape]
    refine (set_last_take_perm l.toList k hk).trans (eraseIdx_perm_erase l.toList v k hk ?_)
    rw [getElem_toList l k hk]
    exact h2

theorem Exclude_m_len_le [Inhabited T] [DecidableEq T] (l : GoArrayList T SIZE) (v : T) :
    (l.Exclude v).2.m_len ≤ l.m_len := by
  unfold Exclude
  rcases excludeLoop_spec l v l.m_len with ⟨_, h2⟩ | ⟨k, _, _, _, h4⟩
  · rw [h2]
  · rw [h4]
    show (if l.m_len - 1 > 0 then _ else _ : GoArrayList T SIZE).m_len ≤ l.m_len
    split
    · exact Nat.sub_le _ _
    · exact Nat.sub_le _ _

theorem RemoveFirst_m_len_le [Inhabited T] [DecidableEq T] (l : GoArrayList T SIZE) (v : T) :
    (l.RemoveFirst v).m_len ≤ l.m_len := by
  unfold RemoveFirst
  rcases removeFirstLoop_spec l v l.m_len 0 with ⟨_, h2⟩ | ⟨k, _, _, _, _, h5⟩
  · rw [h2]
  · rw [h5]
    exact Nat.sub_le _ _

/-- C10: on a list holding `v` exactly once, `Exclude(v)` leaves length `L - 1`,
`Contains(v)` is false afterwards, the elements are a permutation of the old
elements with `v` removed, and `SameElements` holds in both directions between
the results of `Exclude(v)` and of `RemoveFirst(v)` on the same list. -/
theorem Exclude_once_contract [Inhabited T] [DecidableEq T] (l : GoArrayList T SIZE)
    (hwf : l.m_len ≤ SIZE) (v : T) (honce : l.toList.count v = 1) :
    (l.Exclude v).2.Length = l.Length - 1 ∧
    (l.Exclude v).2.Contains v = false ∧
    (l.Exclude v).2.toList.Perm (l.toList.erase v) ∧
    (l.Exclude v).2.SameElements (l.RemoveFirst v) = true ∧
    (l.RemoveFirst v).SameElements (l.Exclude v).2 = true := by
  have hmem : v ∈ l.toList := List.count_pos_iff.1 (by omega)
  have hc : l.Contains v = true := (Contains_iff_mem l hwf v).2 hmem
  obtain ⟨k, _, _, _, _, h5, _, _⟩ := Exclude_of_Contains l hwf v hc
  have hperm := toList_Exclude_perm l hwf v
  have hE : (l.Exclude v).2.m_len ≤ SIZE := le_trans (Exclude_m_len_le l v) hwf
  have hR : (l.RemoveFirst v).m_len ≤ SIZE := le_trans (RemoveFirst_m_len_le l v) hwf
  have hperm2 : (l.Exclude v).2.toList.Perm (l.RemoveFirst v).toList := by
    rw [toList_RemoveFirst l hwf v]; exact hperm
  refine ⟨h5, ?_, hperm, SameElements_of_perm _ _ hE hR hperm2,
    SameElements_of_perm _ _ hR hE hperm2.symm⟩
  rw [← Bool.not_eq_true, Contains_iff_mem _ hE]
  intro hin
  have hcount : (l.Exclude v).2.toList.count v = 0 := by
    rw [hperm.count_eq v, List.count_erase_self, honce]
  exact (List.count_eq_zero.1 hcount) hin

/-- C10, at `[10, 7, 20, 30]`, which holds `7` once. -/
theorem Exclude_once_contract_witness :
    sample4.m_len ≤ 6 ∧ sample4.toList.count 7 = 1 ∧
      (sample4.Exclude 7).2.Length = sample4.Length - 1 ∧
      (sample4.Exclude 7).2.Contains 7 = false ∧
      (sample4.Exclude 7).2.SameElements (sample4.RemoveFirst 7) = true ∧
      (sample4.RemoveFirst 7).SameElements (sample4.Exclude 7).2 = true :=
  ⟨by decide, by decide,
    (Exclude_once_contract sample4 (by decide) 7 (by decide)).1,
    (Exclude_once_contract sample4 (by decide) 7 (by decide)).2.1,
    (Exclude_once_contract sample4 (by decide) 7 (by decide)).2.2.2.1,
    (Exclude_once_contract sample4 (by decide) 7 (by decide)).2.2.2.2⟩


/-! ## operator== -/

theorem eqLoop_iff [Inhabited T] [DecidableEq T] (a b : GoArrayList T SIZE) (i p : Nat) :
    eqLoop a b i p = true ↔ ∀ j, p ≤ j → j < p + i → a.load j = b.load j := by
  induction i generalizing p with
  | zero =>
    simp only [eqLoop, true_iff]
    intro j h1 h2; omega
  | succ i ih =>
    simp only [eqLoop]
    by_cases h : a.load p = b.load p
    · simp only [ne_eq, h, not_true_eq_false, if_false]
      rw [ih (p + 1)]
      constructor
      · intro e j h1 h2
        by_cases hj : j = p
        · subst hj; exact h
        · exact e j (by omega) (by omega)
      · intro e j h1 h2
        exact e j (by omega) (by omega)
    · simp only [ne_eq, h, not_false_eq_true, if_true]
      constructor
      · intro e; exact absurd e (by decide)
      · intro e; exact absurd (e p (le_refl _) (by omega)) h

theorem opEq_iff [Inhabited T] [DecidableEq T] (a b : GoArrayList T SIZE) :
    a.opEq b = true ↔ a.m_len = b.m_len ∧ ∀ j, j < a.m_len → a.load j = b.load j := by
  unfold opEq
  by_cases hlen : a.m_len = b.m_len
  · simp only [ne_eq, hlen, not_true_eq_false, if_false, true_and]
    rw [← hlen, eqLoop_iff]
    constructor
    · intro h j hj; exact h j (Nat.zero_le _) (by omega)
    · intro h j _ hj; exact h j (by omega)
  · simp only [ne_eq, hlen, not_false_eq_true, if_true, false_and]
    exact ⟨fun e => absurd e (by decide), fun e => e.elim⟩

/-- On list objects within capacity `operator==` is equality of the element
lists. -/
theorem opEq_iff_toList [Inhabited T] [DecidableEq T] (a b : GoArrayList T SIZE)
    (ha : a.m_len ≤ SIZE) (hb : b.m_len ≤ SIZE) :
    a.opEq b = true ↔ a.toList = b.toList := by
  rw [opEq_iff]
  constructor
  · rintro ⟨h1, h2⟩
    exact toList_eq_of_load a b ha h1 h2
  · intro h
    have hlen : a.m_len = b.m_len := by
      rw [← length_toList a ha, ← length_toList b hb, h]
    refine ⟨hlen, fun j hj => ?_⟩
    have hj1 : j < a.toList.length := by rw [length_toList a ha]; exact hj
    have hj2 : j < b.toList.length := by rw [← h]; exact hj1
    rw [← getElem_toList a j hj1, ← getElem_toList b j hj2]
    simp only [h]

/-! ## Sort -/

theorem sort_m_len [LinearOrder T] (l : GoArrayList T SIZE) : l.sort.m_len = l.m_len := rfl

theorem toList_sort [LinearOrder T] (l : GoArrayList T SIZE) (hwf : l.m_len ≤ SIZE) :
    l.sort.toList = l.toList.insertionSort (fun x y => x ≤ y) := by
  unfold toList sort
  apply List.take_left'
  rw [List.length_insertionSort, List.length_take, l.size_eq]
  exact Nat.min_eq_left hwf

theorem sort_sort [LinearOrder T] (l : GoArrayList T SIZE) (hwf : l.m_len ≤ SIZE) :
    l.sort.sort = l.sort := by
  have hlen : ((l.m_array.take l.m_len).insertionSort (fun x y => x ≤ y)).length = l.m_len := by
    rw [List.length_insertionSort, List.length_take, l.size_eq]
    exact Nat.min_eq_left hwf
  apply ext_fields
  · rfl
  · show (List.take l.m_len l.sort.m_array).insertionSort (fun x y => x ≤ y) ++
        List.drop l.m_len l.sort.m_array = l.sort.m_array
    have h1 : List.take l.m_len l.sort.m_array =
        (l.m_array.take l.m_len).insertionSort (fun x y => x ≤ y) :=
      List.take_left' hlen
    have h2 : List.drop l.m_len l.sort.m_array = l.m_array.drop l.m_len :=
      List.drop_left' hlen
    rw [h1, h2, List.Sorted.insertionSort_eq (List.sorted_insertionSort _ _)]
    rfl


/-- C11: after `Sort()` the elements are non-decreasing (as a list, and read
through `operator[]` at any two indices `i <= j`), they are a permutation of
the elements before the call, the length is unchanged, and sorting again
leaves a list that is `operator==`-equal to (indeed the same object as) the
list sorted once. -/
theorem sort_contract [Inhabited T] [LinearOrder T] (l : GoArrayList T SIZE)
    (hwf : l.m_len ≤ SIZE) :
    l.sort.toList.Sorted (fun x y => x ≤ y) ∧
    (∀ (i j : Nat) (x y : T), i ≤ j → l.sort.get (i : Int) = .ok x →
      l.sort.get (j : Int) = .ok y → x ≤ y) ∧
    l.sort.toList.Perm l.toList ∧
    l.sort.Length = l.Length ∧
    l.sort.sort.opEq l.sort = true ∧
    l.sort.sort = l.sort := by
  have hs : l.sort.toList.Sorted (fun x y => x ≤ y) := by
    rw [toList_sort l hwf]; exact List.sorted_insertionSort _ _
  have hwf2 : l.sort.m_len ≤ SIZE := hwf
  refine ⟨hs, ?_, ?_, rfl, ?_, sort_sort l hwf⟩
  · intro i j x y hij hi hj
    obtain ⟨hi1, hi2⟩ := (get_eq_ok_iff _ i x).1 hi
    obtain ⟨hj1, hj2⟩ := (get_eq_ok_iff _ j y).1 hj
    have hi3 : i < l.sort.toList.length := by rw [length_toList _ hwf2]; exact hi1
    have hj3 : j < l.sort.toList.length := by rw [length_toList _ hwf2]; exact hj1
    rw [← hi2, ← hj2, ← getElem_toList _ i hi3, ← getElem_toList _ j hj3]
    rcases Nat.eq_or_lt_of_le hij with e | hlt
    · subst e; exact le_refl _
    · exact List.pairwise_iff_getElem.1 hs i j hi3 hj3 hlt
  · rw [toList_sort l hwf]; exact List.perm_insertionSort _ _
  · rw [sort_sort l hwf, opEq_iff]
    exact ⟨rfl, fun _ _ => rfl⟩

/-- C11, at `[3, 1, 2, 1]`, which sorts to `[1, 1, 2, 3]`. -/
theorem sort_contract_witness :
    sample3121.m_len ≤ 6 ∧ sample3121.sort.toList = [1, 1, 2, 3] ∧
      sample3121.sort.toList.Sorted (fun x y => x ≤ y) ∧
      sample3121.sort.sort.opEq sample3121.sort = true :=
  ⟨by decide, by decide, (sort_contract sample3121 (by decide)).1,
    (sort_contract sample3121 (by decide)).2.2.2.2.1⟩


/-! ## PushBackList -/

/-- The loop of `PushBackList` from an iterator over `list` whose end is the
length of `list`: it appends the elements from `m_current` on when they fit,
and stops at the assertion of `PushBack` when they do not. -/
theorem pushBackListLoop_spec [Inhabited T] {SIZE2 : Nat} (list : GoArrayList T SIZE2)
    (hl : list.m_len ≤ SIZE2) (n : Nat) (it : Iterator) (self : GoArrayList T SIZE)
    (hself : self.m_len ≤ SIZE) (hn : it.m_end - it.m_current = n)
    (hend : it.m_end = list.m_len) :
    (self.m_len + n ≤ SIZE →
      (pushBackListLoop list it self).1 = .ok () ∧
      (pushBackListLoop list it self).2.m_len = self.m_len + n ∧
      (pushBackListLoop list it self).2.toList =
        self.toList ++ list.toList.drop it.m_current) ∧
    (SIZE < self.m_len + n →
      (pushBackListLoop list it self).1 = .error .CapacityExceeded) := by
  induction n generalizing it self with
  | zero =>
    have hv : it.valid = false := by
      unfold Iterator.valid
      exact decide_eq_false (by omega)
    have hrun : pushBackListLoop list it self = (.ok (), self) := by
      rw [pushBackListLoop]
      simp [hv]
    rw [hrun]
    refine ⟨fun _ => ⟨rfl, rfl, ?_⟩, fun h => ?_⟩
    · have : list.toList.length ≤ it.m_current := by
        rw [length_toList list hl]; omega
      rw [List.drop_eq_nil_of_le this, List.append_nil]
    · omega
  | succ n ih =>
    have hlt : it.m_current < it.m_end := by omega
    have hv : it.valid = true := by
      unfold Iterator.valid
      exact decide_eq_true hlt
    have hd : it.deref list = .ok (list.load it.m_current) := by
      unfold Iterator.deref
      simp [hv]
    by_cases hroom : self.m_len < SIZE
    · have hrun : pushBackListLoop list it self =
          pushBackListLoop list it.next (self.PushBack (list.load it.m_current)).2 := by
        rw [pushBackListLoop]
        simp [hv, hd, PushBack_of_lt self _ hroom]
      have hlen : (self.PushBack (list.load it.m_current)).2.m_len = self.m_len + 1 := by
        rw [PushBack_of_lt self _ hroom]; rfl
      obtain ⟨h1, h2⟩ := ih it.next (self.PushBack (list.load it.m_current)).2
        (by rw [hlen]; omega) (by show it.m_end - (it.m_current + 1) = n; omega) hend
      rw [hrun]
      refine ⟨fun h => ?_, fun h => h2 (by rw [hlen]; omega)⟩
      obtain ⟨h3, h4, h5⟩ := h1 (by rw [hlen]; omega)
      refine ⟨h3, by rw [h4, hlen]; omega, ?_⟩
      rw [h5, toList_PushBack self _ hroom,
        drop_toList_eq_cons list hl it.m_current (by omega)]
      simp [Iterator.next]
    · have hrun : pushBackListLoop list it self = (.error .CapacityExceeded, self) := by
        rw [pushBackListLoop]
        simp [hv, hd, PushBack_of_not_lt self _ hroom]
      rw [hrun]
      exact ⟨fun h => by omega, fun _ => rfl⟩


/-- C12: `r.PushBackList(o)`, for a list `o` of any capacity, signals
`CapacityExceeded` iff the two lengths together exceed the capacity of `r`;
otherwise it succeeds, the new length is the sum of the lengths, the indices
below the old length read what they read before and index `old length + j`
reads `o[j]`.  The argument is passed by const reference: the call is a
function of it. -/
theorem PushBackList_contract [Inhabited T] {SIZE2 : Nat} (r : GoArrayList T SIZE)
    (o : GoArrayList T SIZE2) (hr : r.m_len ≤ SIZE) (ho : o.m_len ≤ SIZE2) :
    ((r.PushBackList o).1 = .error .CapacityExceeded ↔ SIZE < r.Length + o.Length) ∧
    (r.Length + o.Length ≤ SIZE →
      (r.PushBackList o).1 = .ok () ∧
      (r.PushBackList o).2.Length = r.Length + o.Length ∧
      (r.PushBackList o).2.toList = r.toList ++ o.toList ∧
      (∀ i, i < r.Length → (r.PushBackList o).2.get (i : Int) = r.get (i : Int)) ∧
      (∀ j, j < o.Length →
        (r.PushBackList o).2.get ((r.Length + j : Nat) : Int) = o.get (j : Int))) := by
  unfold PushBackList Length
  obtain ⟨h1, h2⟩ := pushBackListLoop_spec o ho o.m_len (Iterator.init o) r hr
    (by show 0 + o.m_len - 0 = o.m_len; omega) (by show 0 + o.m_len = o.m_len; omega)
  constructor
  · constructor
    · intro e
      by_contra hle
      rw [(h1 (by omega)).1] at e
      exact absurd e (by simp)
    · exact h2
  · intro hfit
    obtain ⟨h3, h4, h5⟩ := h1 hfit
    have h6 : (pushBackListLoop o (Iterator.init o) r).2.toList = r.toList ++ o.toList := by
      rw [h5]; rfl
    have hwf : (pushBackListLoop o (Iterator.init o) r).2.m_len ≤ SIZE := by rw [h4]; exact hfit
    have hrl := length_toList r hr
    have hol := length_toList o ho
    refine ⟨h3, h4, h6, fun i hi => ?_, fun j hj => ?_⟩
    · have hi1 : i < (pushBackListLoop o (Iterator.init o) r).2.toList.length := by
        rw [length_toList _ hwf, h4]; omega
      have hi2 : i < r.toList.length := by rw [hrl]; exact hi
      rw [get_of_lt _ i (by rw [h4]; omega), get_of_lt r i hi, ← getElem_toList _ i hi1,
        ← getElem_toList r i hi2]
      simp only [h6]
      rw [List.getElem_append_left hi2]
    · have hj1 : r.m_len + j < (pushBackListLoop o (Iterator.init o) r).2.toList.length := by
        rw [length_toList _ hwf, h4]; omega
      have hj2 : j < o.toList.length := by rw [hol]; exact hj
      rw [get_of_lt _ (r.m_len + j) (by rw [h4]; omega), get_of_lt o j hj,
        ← getElem_toList _ _ hj1, ← getElem_toList o j hj2]
      simp only [h6]
      rw [List.getElem_append_right (by rw [hrl]; omega)]
      simp only [hrl, Nat.add_sub_cancel_left]

/-- C12, at `[1, 2, 3]` of capacity four with the argument `[9]` of capacity
one (fits) and with the argument `[2, 3, 4]` of capacity four (does not). -/
theorem PushBackList_contract_witness :
    sample123.m_len ≤ 4 ∧ (ofList [9] [] rfl : GoArrayList Nat 1).m_len ≤ 1 ∧
      (sample123.PushBackList (ofList [9] [] rfl : GoArrayList Nat 1)).2.toList =
        [1, 2, 3] ++ [9] ∧
      (sample123.PushBackList sample234).1 = .error .CapacityExceeded :=
  ⟨by decide, by decide,
    ((PushBackList_contract sample123 (ofList [9] [] rfl : GoArrayList Nat 1)
      (by decide) (by decide)).2 (by decide)).2.2.1,
    (PushBackList_contract sample123 sample234 (by decide) (by decide)).1.2 (by decide)⟩


/-! ## The length invariant -/

theorem assignLoop_m_len [Inhabited T] (src : GoArrayList T SIZE) (i p : Nat)
    (dst : GoArrayList T SIZE) : (assignLoop src i p dst).m_len = dst.m_len := by
  induction i generalizing p dst with
  | zero => rfl
  | succ i ih =>
    simp only [assignLoop]
    rw [ih]
    rfl

theorem assign_m_len [Inhabited T] (dst src : GoArrayList T SIZE) :
    (dst.assign src).m_len = src.m_len := by
  unfold assign
  rw [assignLoop_m_len]
  rfl

theorem PushBackList_m_len_le [Inhabited T] {SIZE2 : Nat} (r : GoArrayList T SIZE)
    (o : GoArrayList T SIZE2) (hr : r.m_len ≤ SIZE) (ho : o.m_len ≤ SIZE2)
    (hok : (r.PushBackList o).1 = .ok ()) : (r.PushBackList o).2.m_len ≤ SIZE := by
  unfold PushBackList at hok ⊢
  obtain ⟨h1, h2⟩ := pushBackListLoop_spec o ho o.m_len (Iterator.init o) r hr
    (by show 0 + o.m_len - 0 = o.m_len; omega) (by show 0 + o.m_len = o.m_len; omega)
  by_cases hfit : r.m_len + o.m_len ≤ SIZE
  · rw [(h1 hfit).2.1]; exact hfit
  · rw [h2 (by omega)] at hok
    exact absurd hok (by simp)

theorem Resize_m_len_le (l : GoArrayList T SIZE) (n : Int)
    (hok : (l.Resize n).1 = .ok ()) : (l.Resize n).2.m_len ≤ SIZE := by
  unfold Resize at hok ⊢
  by_cases h1 : n ≥ 0
  · by_cases h2 : n ≤ (SIZE : Int)
    · simp only [h1, h2, not_true_eq_false, if_false, setLen_m_len]
      omega
    · simp [h1, h2] at hok
  · simp [h1] at hok

theorem Include_m_len_le [Inhabited T] [DecidableEq T] (l : GoArrayList T SIZE)
    (hl : l.m_len ≤ SIZE) (v : T) : (l.Include v).2.m_len ≤ SIZE := by
  unfold Include
  by_cases hc : l.Contains v = true
  · rw [if_pos hc]; exact hl
  · rw [if_neg hc]
    by_cases hlt : l.m_len < SIZE
    · rw [PushBack_of_lt l v hlt]; exact hlt
    · rw [PushBack_of_not_lt l v hlt]; exact hl

/-- C13: invariant I1 (`0 <= length <= N`) holds for the default-constructed
and the single-value-constructed list (`N >= 1`), is preserved by
copy-assignment from a list satisfying it, `Clear`, `PushBack`, `PopBack`,
`PushBackList`, `Resize`, `SetTo`, `Include`, `Exclude`, `RemoveFirst` and
`Sort` whenever the call signals no failure, and holds for the list returned
by `Intersect`. -/
theorem I1_contract [Inhabited T] [LinearOrder T] {SIZE2 : Nat} (hN : 1 ≤ SIZE)
    (l arg : GoArrayList T SIZE) (o : GoArrayList T SIZE2) (v : T) (n : Int)
    (hl : I1 l) (harg : I1 arg) (ho : I1 o) :
    I1 (empty : GoArrayList T SIZE) ∧
    I1 (single v : GoArrayList T SIZE) ∧
    I1 (l.assign arg) ∧ I1 (copy arg) ∧
    I1 l.Clear ∧
    ((l.PushBack v).1 = .ok () → I1 (l.PushBack v).2) ∧
    ((l.PopBack).1 = .ok () → I1 (l.PopBack).2) ∧
    ((l.PushBackList o).1 = .ok () → I1 (l.PushBackList o).2) ∧
    ((l.Resize n).1 = .ok () → I1 (l.Resize n).2) ∧
    I1 (l.SetTo v) ∧
    (∀ b, (l.Include v).1 = .ok b → I1 (l.Include v).2) ∧
    I1 (l.Exclude v).2 ∧
    I1 (l.RemoveFirst v) ∧
    I1 l.sort ∧
    (∀ r, l.Intersect arg = .ok r → I1 r) := by
  unfold I1 at *
  refine ⟨⟨Nat.zero_le _, Nat.zero_le _⟩, ⟨Nat.zero_le _, hN⟩, ⟨Nat.zero_le _, ?_⟩,
    ⟨Nat.zero_le _, ?_⟩, ⟨Nat.zero_le _, Nat.zero_le _⟩, fun hok => ⟨Nat.zero_le _, ?_⟩,
    fun hok => ⟨Nat.zero_le _, ?_⟩, fun hok => ⟨Nat.zero_le _, ?_⟩,
    fun hok => ⟨Nat.zero_le _, ?_⟩, ⟨Nat.zero_le _, hN⟩, fun b hok => ⟨Nat.zero_le _, ?_⟩,
    ⟨Nat.zero_le _, ?_⟩, ⟨Nat.zero_le _, ?_⟩, ⟨Nat.zero_le _, hl.2⟩,
    fun r hr => ⟨Nat.zero_le _, ?_⟩⟩
  · rw [assign_m_len]; exact harg.2
  · unfold copy; rw [assign_m_len]; exact harg.2
  · by_cases hlt : l.m_len < SIZE
    · rw [PushBack_of_lt l v hlt]; exact hlt
    · rw [PushBack_of_not_lt l v hlt]; exact hl.2
  · unfold PopBack
    split
    · exact hl.2
    · exact le_trans (Nat.sub_le _ _) hl.2
  · exact PushBackList_m_len_le l o hl.2 ho.2 hok
  · exact Resize_m_len_le l n hok
  · exact Include_m_len_le l hl.2 v
  · exact le_trans (Exclude_m_len_le l v) hl.2
  · exact le_trans (RemoveFirst_m_len_le l v) hl.2
  · rcases Intersect_spec l arg hl.2 with ⟨r2, h1, h2, _⟩ | ⟨h1, _⟩
    · rw [h1] at hr
      rw [← Except.ok.inj hr]; exact h2
    · rw [h1] at hr
      exact absurd hr (by simp)

/-- C13, at `[1, 2, 3]` of capacity four, the argument `[2, 3, 4]` and the
value `9`. -/
theorem I1_contract_witness :
    1 ≤ 4 ∧ I1 sample123 ∧ I1 sample234 ∧ I1 sample4 ∧
      I1 (sample123.PushBack 9).2 ∧ I1 (sample123.Exclude 9).2 ∧ I1 sample123.sort :=
  ⟨by decide, ⟨by decide, by decide⟩, ⟨by decide, by decide⟩, ⟨by decide, by decide⟩,
    (I1_contract (by decide) sample123 sample234 sample4 9 3
      ⟨by decide, by decide⟩ ⟨by decide, by decide⟩ ⟨by decide, by decide⟩).2.2.2.2.2.1 rfl,
    (I1_contract (by decide) sample123 sample234 sample4 9 3
      ⟨by decide, by decide⟩ ⟨by decide, by decide⟩ ⟨by decide, by decide⟩).2.2.2.2.2.2.2.2.2.2.2.1,
    (I1_contract (by decide) sample123 sample234 sample4 9 3
      ⟨by decide, by decide⟩ ⟨by decide, by decide⟩ ⟨by decide, by decide⟩).2.2.2.2.2.2.2.2.2.2.2.2.2.1⟩


/-! ## Exclude against its header comment -/

/-- C14 (the code differs): on `[7, 1, 7, 2]` the value `7` stands first at
index `0`, but `Exclude(7)` leaves `[7, 1, 2]`: index `0` still reads `7`, not
the old last element `2`, and it is index `2`, the last occurrence, that was
overwritten. -/
theorem Exclude_overwrites_last_occurrence :
    sample7172.get ((0 : Nat) : Int) = .ok 7 ∧
    (sample7172.Exclude 7).2.toList = [7, 1, 2] ∧
    (sample7172.Exclude 7).2.get ((0 : Nat) : Int) = .ok 7 ∧
    (sample7172.Exclude 7).2.get ((0 : Nat) : Int) ≠
      sample7172.get (((sample7172.Length - 1 : Nat)) : Int) ∧
    (sample7172.Exclude 7).2.get ((2 : Nat) : Int) ≠ sample7172.get ((2 : Nat) : Int) := by
  refine ⟨rfl, by decide, rfl, ?_, ?_⟩
  · intro h
    exact absurd (Except.ok.inj h) (by decide)
  · intro h
    exact absurd (Except.ok.inj h) (by decide)

/-! ## PushBack, Last, PopBack -/

/-- C15: below the capacity, after `PushBack(v)` the call `Last()` returns `v`;
a following `PopBack()` succeeds, restores the length, leaves the indices below
it reading what they read before, leaves `v` in the freed slot, and the list is
`operator==`-equal to the list before the push.  `PopBack` on an empty list
signals `Underflow`. -/
theorem PushBack_PopBack_contract [Inhabited T] [DecidableEq T] (l : GoArrayList T SIZE)
    (v : T) (hlt : l.Length < SIZE) :
    (l.PushBack v).2.Last = .ok v ∧
    (andThen (l.PushBack v) PopBack).1 = .ok () ∧
    (andThen (l.PushBack v) PopBack).2.Length = l.Length ∧
    (∀ i, i < l.Length →
      (andThen (l.PushBack v) PopBack).2.get (i : Int) = l.get (i : Int)) ∧
    (andThen (l.PushBack v) PopBack).2.load l.Length = v ∧
    (andThen (l.PushBack v) PopBack).2.opEq l = true ∧
    (∀ e : GoArrayList T SIZE, e.Length = 0 → e.PopBack = (.error .Underflow, e)) := by
  unfold Length at *
  have hrun : andThen (l.PushBack v) PopBack = (.ok (), l.store l.m_len v) := by
    rw [PushBack_of_lt l v hlt]
    simp only [andThen, PopBack, setLen_m_len]
    rw [if_neg (by simp)]
    rfl
  refine ⟨?_, by rw [hrun], by rw [hrun]; rfl, fun i hi => ?_, ?_, ?_, fun e he => ?_⟩
  · rw [PushBack_of_lt l v hlt]
    unfold Last
    rw [if_neg (by simp)]
    simp only [setLen_m_len, Nat.add_sub_cancel, load_setLen]
    rw [load_store _ _ _ _ hlt, if_pos rfl]
  · rw [hrun, get_of_lt _ i (by exact hi), get_of_lt l i hi, load_store_ne _ _ _ _ (by omega)]
  · rw [hrun, load_store _ _ _ _ hlt, if_pos rfl]
  · rw [hrun, opEq_iff]
    exact ⟨rfl, fun j hj => load_store_ne _ _ _ _ (by
      have : j < l.m_len := hj
      omega)⟩
  · unfold PopBack
    rw [if_pos (by omega)]

/-- C15, at `[1, 2, 3]` of capacity four and the value `9`: the list after the
push and the pop is `operator==`-equal to the original, and is another object
(slot `3` holds `9` instead of `0`). -/
theorem PushBack_PopBack_contract_witness :
    sample123.Length < 4 ∧
      (andThen (sample123.PushBack 9) PopBack).2.opEq sample123 = true ∧
      (andThen (sample123.PushBack 9) PopBack).2.load sample123.Length = 9 ∧
      (andThen (sample123.PushBack 9) PopBack).2 ≠ sample123 :=
  ⟨by decide, (PushBack_PopBack_contract sample123 9 (by decide)).2.2.2.2.2.1,
    (PushBack_PopBack_contract sample123 9 (by decide)).2.2.2.2.1, by decide⟩


/-! ## Copying -/

theorem assignLoop_load [Inhabited T] (src : GoArrayList T SIZE) (i p : Nat)
    (dst : GoArrayList T SIZE) (h : p + i ≤ SIZE) (j : Nat) :
    (assignLoop src i p dst).load j =
      if p ≤ j ∧ j < p + i then src.load j else dst.load j := by
  induction i generalizing p dst with
  | zero =>
    have : ¬ (p ≤ j ∧ j < p + 0) := by omega
    rw [if_neg this]
    rfl
  | succ i ih =>
    simp only [assignLoop]
    rw [ih (p + 1) _ (by omega), load_store _ _ _ _ (by omega : p < SIZE)]
    by_cases e : j = p
    · have h1 : ¬ (p + 1 ≤ j ∧ j < p + 1 + i) := by omega
      have h2 : p ≤ j ∧ j < p + (i + 1) := by omega
      rw [if_neg h1, if_pos e, if_pos h2, e]
    · by_cases h1 : p + 1 ≤ j ∧ j < p + 1 + i
      · have h2 : p ≤ j ∧ j < p + (i + 1) := by omega
        rw [if_pos h1, if_pos h2]
      · have h2 : ¬ (p ≤ j ∧ j < p + (i + 1)) := by omega
        rw [if_neg h1, if_neg e, if_neg h2]

/-- After `dst = src` the receiver is `operator==`-equal to the argument. -/
theorem assign_opEq [Inhabited T] [DecidableEq T] (dst src : GoArrayList T SIZE)
    (hs : src.m_len ≤ SIZE) : (dst.assign src).opEq src = true := by
  rw [opEq_iff]
  refine ⟨assign_m_len dst src, fun j hj => ?_⟩
  rw [assign_m_len] at hj
  unfold assign
  rw [assignLoop_load _ _ _ _ (by omega), if_pos (by omega)]

theorem store_load_self [Inhabited T] (l : GoArrayList T SIZE) (p : Nat) :
    l.store p (l.load p) = l := by
  apply ext_fields
  · rfl
  · rw [store_m_array]
    by_cases h : p < l.m_array.length
    · rw [load_eq_getElem l p h]
      exact set_getElem_same l.m_array p h
    · exact List.set_eq_of_length_le (by omega)

/-- The copy loop run between two different objects writes the receiver as the
loop on values does and leaves every other object alone. -/
theorem assignLoopAt_of_ne [Inhabited T] (dst src : Nat) (hne : dst ≠ src) (i p : Nat)
    (st : Objects T SIZE) :
    assignLoopAt dst src i p st =
      Function.update st dst (assignLoop (st src) i p (st dst)) := by
  induction i generalizing p st with
  | zero =>
    simp only [assignLoopAt, assignLoop]
    exact (Function.update_eq_self dst st).symm
  | succ i ih =>
    simp only [assignLoopAt, assignLoop]
    rw [ih]
    simp only [Function.update_same, Function.update_noteq (Ne.symm hne),
      Function.update_idem]

/-- The copy loop run on one object as both receiver and argument changes
nothing. -/
theorem assignLoopAt_self [Inhabited T] (d : Nat) (i p : Nat) (st : Objects T SIZE) :
    assignLoopAt d d i p st = st := by
  induction i generalizing p st with
  | zero => rfl
  | succ i ih =>
    simp only [assignLoopAt]
    rw [store_load_self, Function.update_eq_self, ih]

theorem assignAt_of_ne [Inhabited T] (st : Objects T SIZE) (dst src : Nat)
    (hne : dst ≠ src) :
    assignAt st dst src = Function.update st dst ((st dst).assign (st src)) := by
  unfold assignAt assign
  simp only [assignLoopAt_of_ne dst src hne, Function.update_same,
    Function.update_noteq (Ne.symm hne), Function.update_idem, setLen_m_len]

theorem assignAt_self [Inhabited T] (st : Objects T SIZE) (d : Nat) :
    assignAt st d d = st := by
  unfold assignAt
  simp only [assignLoopAt_self]
  rw [setLen_self, Function.update_eq_self]

theorem mutateAt_other [Inhabited T] [DecidableEq T] (ms : List (Mutation T))
    (st : Objects T SIZE) (b s : Nat) (hne : s ≠ b) : mutateAt st b ms s = st s := by
  induction ms generalizing st with
  | nil => rfl
  | cons m ms ih =>
    simp only [mutateAt]
    rw [ih, Function.update_noteq hne]

/-- C17: copy-assignment `b = s` between two different list objects gives `b`
the length of `s`, makes `b == s` true and leaves `s` as it was;
self-assignment changes nothing; the copy constructor gives the same length and
an `operator==`-equal list; and any following sequence of `PushBack`,
`Exclude`, `RemoveFirst`, `Clear` and writes through `operator[]` applied to
`b` leaves the object `s` as it was. -/
theorem copy_contract [Inhabited T] [DecidableEq T] (st : Objects T SIZE) (b s : Nat)
    (ms : List (Mutation T)) (hs : (st s).m_len ≤ SIZE) (hne : b ≠ s) :
    (assignAt st b s b).Length = (st s).Length ∧
    (assignAt st b s b).opEq (assignAt st b s s) = true ∧
    assignAt st b s s = st s ∧
    assignAt st s s = st ∧
    (copy (st s)).Length = (st s).Length ∧
    (copy (st s)).opEq (st s) = true ∧
    mutateAt (assignAt st b s) b ms s = st s := by
  have hb : assignAt st b s b = (st b).assign (st s) := by
    rw [assignAt_of_ne st b s hne, Function.update_same]
  have hsame : assignAt st b s s = st s := by
    rw [assignAt_of_ne st b s hne, Function.update_noteq (Ne.symm hne)]
  refine ⟨?_, ?_, hsame, assignAt_self st s, assign_m_len _ _, assign_opEq _ _ hs, ?_⟩
  · rw [hb]; exact assign_m_len _ _
  · rw [hb, hsame]; exact assign_opEq _ _ hs
  · rw [mutateAt_other ms _ b s (Ne.symm hne), hsame]

/-- C17, at the objects `[2, 3, 4]` (address `0`, the receiver) and `[1, 2, 3]`
(address `1`, the source), with a push, an exclusion and a write on the copy. -/
theorem copy_contract_witness :
    (sampleObjects 1).m_len ≤ 4 ∧ (0 : Nat) ≠ 1 ∧
      (assignAt sampleObjects 0 1 0).opEq (assignAt sampleObjects 0 1 1) = true ∧
      mutateAt (assignAt sampleObjects 0 1) 0
        [.PushBack 9, .Exclude 2, .Write 0 5] 1 = sampleObjects 1 :=
  ⟨by decide, by decide,
    (copy_contract sampleObjects 0 1 [.PushBack 9, .Exclude 2, .Write 0 5]
      (by decide) (by decide)).2.1,
    (copy_contract sampleObjects 0 1 [.PushBack 9, .Exclude 2, .Write 0 5]
      (by decide) (by decide)).2.2.2.2.2.2⟩


/-! ## Duplicate-free lists -/

/-- C18: with a duplicate-free receiver `a`, `a.SameElements(b)` is true iff the
elements of `b` are a permutation of the elements of `a`; then `b` is
duplicate-free as well and `b.SameElements(a)` is true. -/
theorem SameElements_perm_contract [Inhabited T] [DecidableEq T] (a b : GoArrayList T SIZE)
    (ha : a.m_len ≤ SIZE) (hb : b.m_len ≤ SIZE) (hnd : a.toList.Nodup) :
    (a.SameElements b = true ↔ b.toList.Perm a.toList) ∧
    (a.SameElements b = true → b.toList.Nodup ∧ b.SameElements a = true) := by
  have hiff := SameElements_iff_perm_of_nodup a b ha hb hnd
  refine ⟨⟨fun h => (hiff.1 h).symm, fun h => hiff.2 h.symm⟩, fun h => ?_⟩
  have hp := hiff.1 h
  exact ⟨hp.nodup_iff.1 hnd, SameElements_of_perm b a hb ha hp.symm⟩

/-- C18, at the duplicate-free `[1, 2, 3]` against `[2, 3, 4]` (not a
permutation) and against itself. -/
theorem SameElements_perm_contract_witness :
    sample123.m_len ≤ 4 ∧ sample234.m_len ≤ 4 ∧ sample123.toList.Nodup ∧
      (sample123.SameElements sample234 = true ↔ sample234.toList.Perm sample123.toList) ∧
      sample123.SameElements sample123 = true :=
  ⟨by decide, by decide, by decide,
    (SameElements_perm_contract sample123 sample234 (by decide) (by decide) (by decide)).1,
    (SameElements_perm_contract sample123 sample123 (by decide) (by decide) (by decide)).1.2
      (List.Perm.refl _)⟩

/-- On a duplicate-free receiver `Intersect` completes and returns the elements
of the receiver that occur in the argument. -/
theorem Intersect_of_nodup [Inhabited T] [DecidableEq T] (a b : GoArrayList T SIZE)
    (ha : a.m_len ≤ SIZE) (hnda : a.toList.Nodup) :
    ∃ r, a.Intersect b = .ok r ∧ r.m_len ≤ SIZE ∧
      r.toList = a.toList.filter (fun x => b.Contains x) := by
  rcases Intersect_spec a b ha with ⟨r, h1, h2, h3, _⟩ | ⟨_, j, j', h1, h2, h3, _⟩
  · exact ⟨r, h1, h2, h3⟩
  · have := load_inj_of_nodup a ha hnda j' j (by omega) h2 h3
    omega

/-- C19: for duplicate-free lists `a` and `b` of one capacity, `a.Intersect(b)`
and `b.Intersect(a)` both complete, have the same length and are
`SameElements` of each other; and `a.Intersect(a)` completes with a list that
is `operator==`-equal to `a`. -/
theorem Intersect_comm_contract [Inhabited T] [DecidableEq T] (a b : GoArrayList T SIZE)
    (ha : a.m_len ≤ SIZE) (hb : b.m_len ≤ SIZE) (hnda : a.toList.Nodup)
    (hndb : b.toList.Nodup) :
    (∃ r1 r2, a.Intersect b = .ok r1 ∧ b.Intersect a = .ok r2 ∧
      r1.Length = r2.Length ∧ r1.SameElements r2 = true ∧ r2.SameElements r1 = true) ∧
    (∃ r, a.Intersect a = .ok r ∧ r.opEq a = true) := by
  obtain ⟨r1, h1, h1w, h1l⟩ := Intersect_of_nodup a b ha hnda
  obtain ⟨r2, h2, h2w, h2l⟩ := Intersect_of_nodup b a hb hndb
  obtain ⟨r3, h3, h3w, h3l⟩ := Intersect_of_nodup a a ha hnda
  have hperm : r1.toList.Perm r2.toList := by
    rw [h1l, h2l]
    apply (List.perm_ext_iff_of_nodup (hnda.filter _) (hndb.filter _)).2
    intro x
    rw [List.mem_filter, List.mem_filter, Contains_iff_mem b hb, Contains_iff_mem a ha]
    exact And.comm
  refine ⟨⟨r1, r2, h1, h2, ?_, SameElements_of_perm r1 r2 h1w h2w hperm,
    SameElements_of_perm r2 r1 h2w h1w hperm.symm⟩, r3, h3, ?_⟩
  · unfold Length
    rw [← length_toList r1 h1w, ← length_toList r2 h2w]
    exact hperm.length_eq
  · rw [opEq_iff_toList r3 a h3w ha, h3l, List.filter_eq_self]
    intro x hx
    exact (Contains_iff_mem a ha x).2 hx

/-- C19, at `[1, 2, 3]` and `[2, 3, 4]`. -/
theorem Intersect_comm_contract_witness :
    sample123.m_len ≤ 4 ∧ sample234.m_len ≤ 4 ∧ sample123.toList.Nodup ∧
      sample234.toList.Nodup ∧
      (∃ r1 r2, sample123.Intersect sample234 = .ok r1 ∧
        sample234.Intersect sample123 = .ok r2 ∧ r1.Length = r2.Length ∧
        r1.SameElements r2 = true ∧ r2.SameElements r1 = true) ∧
      ∃ r, sample123.Intersect sample123 = .ok r ∧ r.opEq sample123 = true :=
  ⟨by decide, by decide, by decide, by decide,
    (Intersect_comm_contract sample123 sample234 (by decide) (by decide) (by decide)
      (by decide)).1,
    (Intersect_comm_contract sample123 sample234 (by decide) (by decide) (by decide)
      (by decide)).2⟩

/-- The elements after `Include(v)`: unchanged when `v` is contained or there
is no room, with `v` appended otherwise. -/
theorem toList_Include [Inhabited T] [DecidableEq T] (l : GoArrayList T SIZE) (v : T) :
    (l.Include v).2.toList =
      if l.Contains v = true then l.toList
      else if l.m_len < SIZE then l.toList ++ [v] else l.toList := by
  unfold Include
  by_cases hc : l.Contains v = true
  · rw [if_pos hc, if_pos hc]
  · rw [if_neg hc, if_neg hc]
    by_cases hlt : l.m_len < SIZE
    · rw [if_pos hlt, ← toList_PushBack l v hlt, PushBack_of_lt l v hlt]
    · rw [if_neg hlt, PushBack_of_not_lt l v hlt]

/-- C20: on a list whose elements are pairwise distinct, the elements are still
pairwise distinct after `Include(v)` (whether or not it overflows),
`Exclude(v)`, `RemoveFirst(v)` and `Sort()`; `Contains(v)` is false after
`Exclude(v)` and after `RemoveFirst(v)`; and `Intersect` with any argument
completes with a duplicate-free list. -/
theorem Nodup_contract [Inhabited T] [LinearOrder T] (l arg : GoArrayList T SIZE)
    (v : T) (hwf : l.m_len ≤ SIZE) (hnd : l.toList.Nodup) :
    (l.Include v).2.toList.Nodup ∧
    (l.Exclude v).2.toList.Nodup ∧
    (l.RemoveFirst v).toList.Nodup ∧
    l.sort.toList.Nodup ∧
    (l.Exclude v).2.Contains v = false ∧
    (l.RemoveFirst v).Contains v = false ∧
    (∃ r, l.Intersect arg = .ok r ∧ r.toList.Nodup) := by
  have hE := toList_Exclude_perm l hwf v
  have hR := toList_RemoveFirst l hwf v
  have hEw : (l.Exclude v).2.m_len ≤ SIZE := le_trans (Exclude_m_len_le l v) hwf
  have hRw : (l.RemoveFirst v).m_len ≤ SIZE := le_trans (RemoveFirst_m_len_le l v) hwf
  have hnot : v ∉ l.toList.erase v := hnd.not_mem_erase
  refine ⟨?_, hE.nodup_iff.2 (hnd.erase v), by rw [hR]; exact hnd.erase v, ?_, ?_, ?_, ?_⟩
  · rw [toList_Include]
    by_cases hc : l.Contains v = true
    · rw [if_pos hc]; exact hnd
    · rw [if_neg hc]
      split
      · have hv : v ∉ l.toList := fun h => hc ((Contains_iff_mem l hwf v).2 h)
        have := List.Nodup.concat hv hnd
        rwa [List.concat_eq_append] at this
      · exact hnd
  · rw [toList_sort l hwf]
    exact (List.perm_insertionSort _ _).nodup_iff.2 hnd
  · rw [← Bool.not_eq_true, Contains_iff_mem _ hEw]
    exact fun h => hnot (hE.mem_iff.1 h)
  · rw [← Bool.not_eq_true, Contains_iff_mem _ hRw, hR]
    exact hnot
  · obtain ⟨r, h1, _, h3⟩ := Intersect_of_nodup l arg hwf hnd
    exact ⟨r, h1, by rw [h3]; exact hnd.filter _⟩

/-- C20, at the duplicate-free `[10, 7, 20, 30]`, the value `7` and the
argument `[10, 7, 20, 30]`. -/
theorem Nodup_contract_witness :
    sample4.m_len ≤ 6 ∧ sample4.toList.Nodup ∧
      (sample4.Exclude 7).2.toList.Nodup ∧ (sample4.Exclude 7).2.Contains 7 = false ∧
      sample4.sort.toList.Nodup :=
  ⟨by decide, by decide,
    (Nodup_contract sample4 sample4 7 (by decide) (by decide)).2.1,
    (Nodup_contract sample4 sample4 7 (by decide) (by decide)).2.2.2.2.1,
    (Nodup_contract sample4 sample4 7 (by decide) (by decide)).2.2.2.1⟩

end GoArrayList

end SgArrayList

namespace tensorflow

/-! ## Set_TF_Status_from_Status -/

/-- C16 (refuted as stated): for the listed code `OK` the call fails when the
foreign status object holds another code beforehand, and when it holds `TF_OK`
the call leaves the old message in place instead of storing the new one. -/
theorem Set_TF_Status_from_Status_OK_case :
    Set_TF_Status_from_Status ⟨.TF_CANCELLED, "x"⟩ ⟨.OK, "m"⟩ = none ∧
    mapStatus ⟨.OK, "m"⟩ = some ⟨.TF_OK, "m"⟩ ∧
    Set_TF_Status_from_Status ⟨.TF_OK, "old"⟩ ⟨.OK, "m"⟩ = some ⟨.TF_OK, "old"⟩ :=
  ⟨rfl, rfl, rfl⟩

/-- A message without a NUL character is its own C string. -/
theorem c_str_of_NulFree (s : String) (h : NulFree s) : c_str s = s := by
  unfold c_str
  have : s.data.takeWhile (fun c => c ≠ Char.ofNat 0) = s.data := by
    rw [List.takeWhile_eq_self_iff]
    intro c hc
    have hne : c ≠ Char.ofNat 0 := fun e => h (e ▸ hc)
    simpa using hne
  rw [this]

/-- The C string of a message holds no NUL character. -/
theorem NulFree_c_str (s : String) : NulFree (c_str s) := by
  unfold NulFree c_str
  intro h
  have := List.mem_takeWhile_imp h
  simp at this

/-- A message cut at an embedded NUL: `Set_TF_Status_from_Status` stores the
characters before the NUL only. -/
theorem Set_TF_Status_from_Status_cuts_at_NUL :
    Set_TF_Status_from_Status ⟨.TF_OK, ""⟩
      ⟨.CANCELLED, String.mk ['a', Char.ofNat 0, 'b']⟩ = some ⟨.TF_CANCELLED, "a"⟩ := by
  decide

/-- C16 (amended): for each of the 16 generic codes other than `OK`, every
message and every prior content of the foreign status object, the call does not
fail and leaves the foreign status holding the same-named foreign code with
the C string of that message: the message itself when it holds no NUL
character (then the result is the lookup `mapStatus`), its characters before
the first NUL otherwise; for `OK` it stores nothing: it leaves the foreign
status untouched when that already holds `TF_OK` and fails otherwise; the
lookup by name is one-to-one; and the call fails exactly for a code outside the
enumeration and for `OK` on a foreign status not holding `TF_OK`. -/
theorem Set_TF_Status_from_Status_contract (tf_status : TF_Status) (status : Status) :
    (∀ c, status.code ≠ .OK → sameNamed status.code = some c →
      Set_TF_Status_from_Status tf_status status =
        some ⟨c, c_str status.error_message⟩) ∧
    (∀ c, status.code ≠ .OK → sameNamed status.code = some c →
      NulFree status.error_message →
        Set_TF_Status_from_Status tf_status status = some ⟨c, status.error_message⟩ ∧
        Set_TF_Status_from_Status tf_status status = mapStatus status) ∧
    (status.code = .OK →
      Set_TF_Status_from_Status tf_status status =
        if TF_GetCode tf_status = .TF_OK then some tf_status else none) ∧
    (∀ c₁ c₂ f, sameNamed c₁ = some f → sameNamed c₂ = some f → c₁ = c₂) ∧
    (Set_TF_Status_from_Status tf_status status = none ↔
      (∃ n, status.code = .other n) ∨
        (status.code = .OK ∧ TF_GetCode tf_status ≠ .TF_OK)) := by
  obtain ⟨code, msg⟩ := status
  have hcut : ∀ c, code ≠ .OK → sameNamed code = some c →
      Set_TF_Status_from_Status tf_status ⟨code, msg⟩ = some ⟨c, c_str msg⟩ := by
    intro c
    cases code <;> simp [Set_TF_Status_from_Status, sameNamed, TF_SetStatus]
  refine ⟨hcut, ?_, ?_, ?_, ?_⟩
  · intro c hne hc hnul
    have hfree : c_str msg = msg := c_str_of_NulFree msg hnul
    refine ⟨by rw [hcut c hne hc, hfree], ?_⟩
    rw [hcut c hne hc, hfree]
    simp only [mapStatus] at hc ⊢
    rw [hc]
  · intro h
    simp only at h
    subst h
    simp [Set_TF_Status_from_Status]
  · intro c₁ c₂ f
    cases c₁ <;> cases c₂ <;> simp [sameNamed] <;> intro h <;> simp [← h]
  · cases code <;> simp [Set_TF_Status_from_Status, TF_SetStatus]

/-- C16 (amended), at the generic status `NOT_FOUND` with the NUL-free message
`"gone"` and a foreign status holding `TF_INTERNAL`. -/
theorem Set_TF_Status_from_Status_contract_witness :
    (⟨.NOT_FOUND, "gone"⟩ : Status).code ≠ .OK ∧
      sameNamed (⟨.NOT_FOUND, "gone"⟩ : Status).code = some .TF_NOT_FOUND ∧
      NulFree "gone" ∧
      Set_TF_Status_from_Status ⟨.TF_INTERNAL, "x"⟩ ⟨.NOT_FOUND, "gone"⟩ =
        some ⟨.TF_NOT_FOUND, "gone"⟩ :=
  ⟨by decide, rfl, by decide,
    ((Set_TF_Status_from_Status_contract ⟨.TF_INTERNAL, "x"⟩
      ⟨.NOT_FOUND, "gone"⟩).2.1 .TF_NOT_FOUND (by decide) rfl (by decide)).1⟩

end tensorflow
